import Mathlib

/-!
# Verification of the proto-array fork-choice engine

A shallow embedding of `ProtoArray` (file `eth2/lmd_ghost/src/proto_array.rs`)
together with proofs about its operations `on_new_block`, `apply_score_changes`,
`find_head` and `maybe_prune`.

Modelling conventions:
* `Hash256` roots are natural numbers below `2^256`; the Rust `Ord` on `H256`
  is byte-lexicographic, which coincides with the numeric order.
* `Epoch` and `usize` are natural numbers.
* `u64` weights are natural numbers; the checked arithmetic of the source is
  modelled explicitly against `2^64 - 1`.
* The `HashMap<Hash256, usize>` is modelled as an association list without
  duplicate keys; `insert` replaces, `remove` deletes, `len` is the length.
* A `&mut self` method returning `Result<(), Error>` becomes a function
  returning `Option Error × ProtoArray`: the first component is `none` on
  `Ok(())`, and the second component is the state left behind (also on the
  error paths, which in the source can leave partial mutations).
-/

/-- Maximum value of a Rust `u64`. -/
def u64max : Nat := 2 ^ 64 - 1

/-- The error kinds of the `lmd_ghost` crate that `proto_array.rs` constructs,
plus `UnknownParent`, which the specification names for `on_new_block` but the
source never constructs. -/
inductive PAError where
  | JustifiedNodeUnknown : Nat → PAError
  | InvalidJustifiedIndex : Nat → PAError
  | InvalidFindHeadStartRoot : PAError
  | InvalidDeltaLen : Nat → Nat → PAError
  | InvalidNodeIndex : Nat → PAError
  | InvalidNodeDelta : Nat → PAError
  | DeltaOverflow : Nat → PAError
  | InvalidParentDelta : Nat → PAError
  | InvalidParentIndex : Nat → PAError
  | InvalidBestChildIndex : Nat → PAError
  | InvalidBestDescendant : Nat → PAError
  | InvalidFinalizedRootChange : PAError
  | RevertedFinalizedEpoch : PAError
  | FinalizedNodeUnknown : Nat → PAError
  | IndexOverflow : String → PAError
  | UnknownParent : PAError
deriving Repr, DecidableEq

/-- `ProtoNode` from `proto_array.rs`. -/
structure ProtoNode where
  root : Nat
  parent : Option Nat
  justified_epoch : Nat
  finalized_epoch : Nat
  weight : Nat
  best_child : Option Nat
  best_descendant : Option Nat
deriving Repr, DecidableEq

/-- `ProtoArray` from `proto_array.rs`. -/
structure ProtoArray where
  prune_threshold : Nat
  ffg_update_required : Bool
  justified_epoch : Nat
  finalized_epoch : Nat
  finalized_root : Nat
  nodes : List ProtoNode
  indices : List (Nat × Nat)
deriving Repr, DecidableEq

/-- `HashMap::get` on the association-list model. -/
def lookup (m : List (Nat × Nat)) (k : Nat) : Option Nat :=
  (m.find? (fun p => p.1 = k)).map (fun p => p.2)

/-- `HashMap::insert` on the association-list model: replace an existing key,
otherwise append. -/
def insertMap (m : List (Nat × Nat)) (k v : Nat) : List (Nat × Nat) :=
  if m.any (fun p => p.1 = k) then
    m.map (fun p => if p.1 = k then (k, v) else p)
  else m ++ [(k, v)]

/-- `HashMap::remove` on the association-list model. -/
def removeKey (m : List (Nat × Nat)) (k : Nat) : List (Nat × Nat) :=
  m.filter (fun p => p.1 ≠ k)

/-- `ProtoNode::is_better_than` (proto_array.rs lines 20-26). -/
def ProtoNode.is_better_than (a other : ProtoNode) : Bool :=
  if a.weight = other.weight then
    decide (other.root ≤ a.root)
  else
    decide (other.weight ≤ a.weight)

/-- `ProtoArray::node_is_viable_for_head` (lines 423-425). -/
def ProtoArray.node_is_viable_for_head (a : ProtoArray) (node : ProtoNode) : Bool :=
  decide (node.justified_epoch = a.justified_epoch) &&
    decide (node.finalized_epoch = a.finalized_epoch)

/-- `ProtoArray::set_best_child` (lines 395-415). -/
def ProtoArray.set_best_child (a : ProtoArray) (parent_index child_index : Nat) :
    Option PAError × ProtoArray :=
  match a.nodes.get? child_index with
  | none => (some (.InvalidNodeIndex child_index), a)
  | some child =>
    match a.nodes.get? parent_index with
    | none => (some (.InvalidParentIndex parent_index), a)
    | some parent_node =>
      let parent_node' : ProtoNode := { parent_node with
        best_child := some child_index,
        best_descendant := some (child.best_descendant.getD child_index) }
      (none, { a with nodes := a.nodes.set parent_index parent_node' })

/-- `u64::checked_add` on the `Nat` model of `u64`. -/
def checkedAdd (w d : Nat) : Option Nat :=
  if w + d ≤ u64max then some (w + d) else none

/-- `u64::checked_sub` on the `Nat` model of `u64`. -/
def checkedSubW (w d : Nat) : Option Nat :=
  if d ≤ w then some (w - d) else none

/-- The weight update of `apply_score_changes` (lines 100-119): checked
subtraction of `|delta|` for a negative delta, checked addition otherwise. -/
def applyWeight (w : Nat) (node_delta : Int) : Option Nat :=
  if node_delta < 0 then checkedSubW w node_delta.natAbs
  else checkedAdd w node_delta.toNat

/-- One iteration of the reverse loop of `apply_score_changes`
(lines 81-206), at index `node_index`. -/
def applyStep (a : ProtoArray) (deltas : List Int) (node_index : Nat) :
    Option PAError × (ProtoArray × List Int) :=
  match a.nodes.get? node_index with
  | none => (some (.InvalidNodeIndex node_index), (a, deltas))
  | some node =>
    if node.root = 0 then (none, (a, deltas))
    else
      match deltas.get? node_index with
      | none => (some (.InvalidNodeDelta node_index), (a, deltas))
      | some node_delta =>
        match applyWeight node.weight node_delta with
        | none => (some (.DeltaOverflow node_index), (a, deltas))
        | some w =>
          let a := { a with nodes := a.nodes.set node_index ({ node with weight := w }) }
          match node.parent with
          | none => (none, (a, deltas))
          | some parent_index =>
            match deltas.get? parent_index with
            | none => (some (.InvalidParentDelta parent_index), (a, deltas))
            | some parent_delta =>
              let deltas := deltas.set parent_index (parent_delta + node_delta)
              match a.nodes.get? node_index with
              | none => (some (.InvalidNodeIndex parent_index), (a, deltas))
              | some node2 =>
                if a.node_is_viable_for_head node2 then
                  match a.nodes.get? parent_index with
                  | none => (some (.InvalidParentIndex parent_index), (a, deltas))
                  | some parent_node =>
                    match parent_node.best_child with
                    | some parent_best_child_index =>
                      if parent_best_child_index = node_index then
                        match a.set_best_child parent_index node_index with
                        | (e, a') => (e, (a', deltas))
                      else
                        match a.nodes.get? parent_best_child_index with
                        | none =>
                          (some (.InvalidBestChildIndex parent_best_child_index), (a, deltas))
                        | some parent_best_child =>
                          match a.nodes.get? node_index with
                          | none => (some (.InvalidNodeIndex node_index), (a, deltas))
                          | some nd =>
                            if nd.is_better_than parent_best_child ||
                                ! a.node_is_viable_for_head parent_best_child then
                              match a.set_best_child parent_index node_index with
                              | (e, a') => (e, (a', deltas))
                            else (none, (a, deltas))
                    | none =>
                      match a.set_best_child parent_index node_index with
                      | (e, a') => (e, (a', deltas))
                else
                  if a.ffg_update_required then
                    match a.nodes.get? parent_index with
                    | none => (some (.InvalidParentIndex parent_index), (a, deltas))
                    | some parent_node =>
                      if parent_node.best_child = some node_index then
                        let cleared : ProtoNode :=
                          { parent_node with best_child := none, best_descendant := none }
                        (none, ({ a with nodes := a.nodes.set parent_index cleared }, deltas))
                      else (none, (a, deltas))
                  else (none, (a, deltas))

/-- Indices `[n-1, n-2, …, 0]`: the order of `(0..n).rev()`. -/
def revRange : Nat → List Nat
  | 0 => []
  | n + 1 => n :: revRange n

/-- The reverse loop of `apply_score_changes`, short-circuiting on error with
the partially mutated state (the source returns early via `?`). -/
def applyLoop (a : ProtoArray) (deltas : List Int) :
    List Nat → Option PAError × (ProtoArray × List Int)
  | [] => (none, (a, deltas))
  | i :: rest =>
    match applyStep a deltas i with
    | (some e, s) => (some e, s)
    | (none, (a', d')) => applyLoop a' d' rest

/-- `ProtoArray::apply_score_changes` (lines 59-211). -/
def ProtoArray.apply_score_changes (a : ProtoArray) (deltas : List Int)
    (justified_epoch : Nat) : Option PAError × ProtoArray :=
  if deltas.length ≠ a.indices.length then
    (some (.InvalidDeltaLen deltas.length a.indices.length), a)
  else
    let ffg : Bool := decide (justified_epoch ≠ a.justified_epoch)
    let a := { a with
      ffg_update_required := ffg,
      justified_epoch := if ffg then justified_epoch else a.justified_epoch }
    match applyLoop a deltas (revRange a.nodes.length) with
    | (some e, (a', _)) => (some e, a')
    | (none, (a', _)) => (none, { a' with ffg_update_required := false })

/-- `ProtoArray::on_new_block` (lines 216-263). -/
def ProtoArray.on_new_block (a : ProtoArray) (root : Nat) (parent : Option Nat)
    (justified_epoch finalized_epoch : Nat) : Option PAError × ProtoArray :=
  let node_index := a.nodes.length
  let node : ProtoNode :=
    { root := root
      parent := parent.bind (lookup a.indices)
      justified_epoch := justified_epoch
      finalized_epoch := finalized_epoch
      weight := 0
      best_child := none
      best_descendant := none }
  let a := { a with
    indices := insertMap a.indices node.root node_index
    nodes := a.nodes ++ [node] }
  if justified_epoch = a.justified_epoch ∧ finalized_epoch = a.finalized_epoch then
    match node.parent with
    | none => (none, a)
    | some parent_index =>
      match a.nodes.get? parent_index with
      | none => (some (.InvalidParentIndex parent_index), a)
      | some p =>
        match p.best_child with
        | none => a.set_best_child parent_index node_index
        | some parent_best_child_index =>
          match a.nodes.get? parent_best_child_index with
          | none => (some (.InvalidBestChildIndex parent_best_child_index), a)
          | some parent_best_child =>
            if node.is_better_than parent_best_child then
              a.set_best_child parent_index node_index
            else (none, a)
  else (none, a)

/-- `ProtoArray::find_head` (lines 273-303). -/
def ProtoArray.find_head (a : ProtoArray) (justified_root : Nat) :
    Except PAError Nat :=
  match lookup a.indices justified_root with
  | none => .error (.JustifiedNodeUnknown a.finalized_root)
  | some justified_index =>
    match a.nodes.get? justified_index with
    | none => .error (.InvalidJustifiedIndex justified_index)
    | some justified_node =>
      if justified_node.justified_epoch ≠ a.justified_epoch ∨
          justified_node.finalized_epoch ≠ a.finalized_epoch then
        .error .InvalidFindHeadStartRoot
      else
        let best_descendant_index := justified_node.best_descendant.getD justified_index
        match a.nodes.get? best_descendant_index with
        | none => .error (.InvalidBestDescendant best_descendant_index)
        | some best_node => .ok best_node.root

/-- The checkpoint update at the head of `maybe_prune` (lines 331-335). -/
def pruneUpdate (a : ProtoArray) (finalized_epoch finalized_root : Nat) : ProtoArray :=
  if finalized_epoch ≠ a.finalized_epoch then
    { a with
      finalized_epoch := finalized_epoch
      finalized_root := finalized_root
      ffg_update_required := true }
  else a

/-- The loop of `maybe_prune` removing the `indices` entries of the
to-be-deleted nodes (lines 348-355); reads the unmodified `nodes`. -/
def removeLoop (nodes : List ProtoNode) (indices : List (Nat × Nat)) :
    List Nat → Option PAError × List (Nat × Nat)
  | [] => (none, indices)
  | i :: rest =>
    match nodes.get? i with
    | none => (some (.InvalidNodeIndex i), indices)
    | some nd => removeLoop nodes (removeKey indices nd.root) rest

/-- The loop of `maybe_prune` shifting every `indices` value down by
`finalized_index` (lines 361-365); on underflow the already-visited entries
stay mutated, as with the source's `iter_mut` and `?`. -/
def adjustIndices (f : Nat) : List (Nat × Nat) → Option PAError × List (Nat × Nat)
  | [] => (none, [])
  | (k, v) :: rest =>
    if v < f then (some (.IndexOverflow "indices"), (k, v) :: rest)
    else
      match adjustIndices f rest with
      | (e, rest') => (e, (k, v - f) :: rest')

/-- The per-node body of the final loop of `maybe_prune` (lines 369-388):
`parent` saturates to `None`, `best_child` and `best_descendant` fail on
underflow. -/
def adjustNode (f : Nat) (nd : ProtoNode) : Option PAError × ProtoNode :=
  let nd := { nd with
    parent := nd.parent.bind (fun p => if p < f then none else some (p - f)) }
  match nd.best_child with
  | some bc =>
    if bc < f then (some (.IndexOverflow "best_child"), nd)
    else
      let nd := { nd with best_child := some (bc - f) }
      match nd.best_descendant with
      | some bd =>
        if bd < f then (some (.IndexOverflow "best_descendant"), nd)
        else (none, { nd with best_descendant := some (bd - f) })
      | none => (none, nd)
  | none =>
    match nd.best_descendant with
    | some bd =>
      if bd < f then (some (.IndexOverflow "best_descendant"), nd)
      else (none, { nd with best_descendant := some (bd - f) })
    | none => (none, nd)

/-- The final loop of `maybe_prune` over all remaining nodes. -/
def adjustNodes (f : Nat) : List ProtoNode → Option PAError × List ProtoNode
  | [] => (none, [])
  | nd :: rest =>
    match adjustNode f nd with
    | (some e, nd') => (some e, nd' :: rest)
    | (none, nd') =>
      match adjustNodes f rest with
      | (e, rest') => (e, nd' :: rest')

/-- `ProtoArray::maybe_prune` (lines 318-391). -/
def ProtoArray.maybe_prune (a : ProtoArray) (finalized_epoch finalized_root : Nat) :
    Option PAError × ProtoArray :=
  if finalized_epoch = a.finalized_epoch ∧ a.finalized_root ≠ finalized_root then
    (some .InvalidFinalizedRootChange, a)
  else if finalized_epoch < a.finalized_epoch then
    (some .RevertedFinalizedEpoch, a)
  else
    let a := pruneUpdate a finalized_epoch finalized_root
    match lookup a.indices a.finalized_root with
    | none => (some (.FinalizedNodeUnknown a.finalized_root), a)
    | some finalized_index =>
      if finalized_index < a.prune_threshold then (none, a)
      else
        match removeLoop a.nodes a.indices (List.range finalized_index) with
        | (some e, ind') => (some e, { a with indices := ind' })
        | (none, ind') =>
          let a := { a with indices := ind', nodes := a.nodes.drop finalized_index }
          match adjustIndices finalized_index a.indices with
          | (some e, ind2) => (some e, { a with indices := ind2 })
          | (none, ind2) =>
            let a := { a with indices := ind2 }
            match adjustNodes finalized_index a.nodes with
            | (e, nodes') => (e, { a with nodes := nodes' })

/-- The successful-path node shift of `maybe_prune`: subtract `f` from every
cross reference, a `parent` that would underflow becomes `none`. -/
def shiftNode (f : Nat) (nd : ProtoNode) : ProtoNode :=
  { nd with
    parent := nd.parent.bind (fun p => if p < f then none else some (p - f))
    best_child := nd.best_child.map (fun x => x - f)
    best_descendant := nd.best_descendant.map (fun x => x - f) }

/-! ## Basic helper lemmas -/

theorem list_set_self {α : Type} {l : List α} {i : Nat} {x : α}
    (h : l.get? i = some x) : l.set i x = l := by
  induction l generalizing i with
  | nil => simp at h
  | cons y ys ih =>
    cases i with
    | zero => simp at h; simp [h]
    | succ j =>
      rw [List.get?_cons_succ] at h
      simp [List.set, ih h]

theorem lookup_lt_of_all {m : List (Nat × Nat)} {n r i : Nat}
    (hall : m.all (fun kv => decide (kv.2 < n)) = true)
    (h : lookup m r = some i) : i < n := by
  unfold lookup at h
  cases hf : m.find? (fun p => p.1 = r) with
  | none => rw [hf] at h; simp at h
  | some kv =>
    rw [hf] at h
    simp at h
    have hmem := List.mem_of_find?_eq_some hf
    have := (List.all_eq_true.mp hall) kv hmem
    simp at this
    omega

/-! ## Concrete test states

`anchorState` is the engine seeded with a single anchor node of root `1`;
`chainTwo` and `chainThree` extend it with a chain of `on_new_block` calls;
`flagState` is a two-node engine whose anchor has node `1` as best child. -/

def anchorState : ProtoArray :=
  { prune_threshold := 0
    ffg_update_required := false
    justified_epoch := 0
    finalized_epoch := 0
    finalized_root := 1
    nodes := [{ root := 1, parent := none, justified_epoch := 0, finalized_epoch := 0,
                weight := 0, best_child := none, best_descendant := none }]
    indices := [(1, 0)] }

def chainTwo : ProtoArray := (anchorState.on_new_block 2 (some 1) 0 0).2

def chainThree : ProtoArray := (chainTwo.on_new_block 3 (some 2) 0 0).2

def flagState : ProtoArray :=
  { prune_threshold := 100
    ffg_update_required := false
    justified_epoch := 0
    finalized_epoch := 0
    finalized_root := 1
    nodes := [{ root := 1, parent := none, justified_epoch := 0, finalized_epoch := 0,
                weight := 0, best_child := some 1, best_descendant := some 1 },
              { root := 2, parent := some 0, justified_epoch := 0, finalized_epoch := 0,
                weight := 0, best_child := none, best_descendant := none }]
    indices := [(1, 0), (2, 1)] }

/-! ## C9: the tiebreak order -/

/-- C9: `is_better_than a b` is true iff `a` has strictly greater weight, or
equal weight and lexicographically greater-or-equal root; in particular every
node is better than itself. -/
theorem is_better_than_spec :
    (∀ a b : ProtoNode, a.is_better_than b = true ↔
      (b.weight < a.weight ∨ (a.weight = b.weight ∧ b.root ≤ a.root))) ∧
    ∀ a : ProtoNode, a.is_better_than a = true := by
  constructor
  · intro a b
    unfold ProtoNode.is_better_than
    split <;> simp_all <;> omega
  · intro a
    unfold ProtoNode.is_better_than
    simp

/-! ## C5: `maybe_prune` guard errors -/

/-- C5: `maybe_prune` fails with `InvalidFinalizedRootChange` when the epoch is
unchanged but the root differs, fails with `RevertedFinalizedEpoch` when the
epoch goes backwards, and leaves the state unchanged in both cases. -/
theorem maybe_prune_guard_errors (a : ProtoArray) (fe fr : Nat) :
    (fe = a.finalized_epoch → fr ≠ a.finalized_root →
      a.maybe_prune fe fr = (some .InvalidFinalizedRootChange, a)) ∧
    (fe < a.finalized_epoch →
      a.maybe_prune fe fr = (some .RevertedFinalizedEpoch, a)) := by
  constructor
  · intro h1 h2
    unfold ProtoArray.maybe_prune
    rw [if_pos ⟨h1, fun hc => h2 hc.symm⟩]
  · intro h
    unfold ProtoArray.maybe_prune
    rw [if_neg (fun hc => absurd hc.1 (by omega)), if_pos h]

/-- C5 witness: both error branches observed on `anchorState`. -/
theorem maybe_prune_guard_errors_witness :
    anchorState.maybe_prune 0 7 = (some .InvalidFinalizedRootChange, anchorState) ∧
    ({ anchorState with finalized_epoch := 3 } : ProtoArray).maybe_prune 1 1 =
      (some .RevertedFinalizedEpoch, { anchorState with finalized_epoch := 3 }) := by
  refine ⟨(maybe_prune_guard_errors anchorState 0 7).1 (by decide) (by decide), ?_⟩
  exact (maybe_prune_guard_errors ({ anchorState with finalized_epoch := 3 }) 1 1).2 (by decide)

/-! ## C10: unknown finalized node in `maybe_prune` -/

/-- C10: when the finalized root (after the epoch/root update) is absent from
the index map, `maybe_prune` fails with `FinalizedNodeUnknown`; when the pair
had advanced, the engine keeps the new `finalized_epoch`/`finalized_root`
despite the error. -/
theorem maybe_prune_finalized_unknown (a : ProtoArray) (fe fr : Nat) :
    (a.finalized_epoch < fe → lookup a.indices fr = none →
      a.maybe_prune fe fr = (some (.FinalizedNodeUnknown fr),
        { a with finalized_epoch := fe, finalized_root := fr,
                 ffg_update_required := true })) ∧
    (fe = a.finalized_epoch → fr = a.finalized_root → lookup a.indices fr = none →
      a.maybe_prune fe fr = (some (.FinalizedNodeUnknown fr), a)) := by
  constructor
  · intro hadv habs
    unfold ProtoArray.maybe_prune
    rw [if_neg (fun hc => absurd hc.1 (by omega)), if_neg (by omega)]
    unfold pruneUpdate
    rw [if_pos (by omega)]
    simp only
    rw [habs]
  · intro he hr habs
    unfold ProtoArray.maybe_prune
    rw [if_neg (fun hc => hc.2 (by rw [hr]))]
    rw [if_neg (by omega)]
    unfold pruneUpdate
    rw [if_neg (by omega)]
    simp only
    rw [← hr, habs]

/-- C10 witness: advancing prune to an unknown root leaves the updated pair in
place while failing. -/
theorem maybe_prune_finalized_unknown_witness :
    anchorState.maybe_prune 2 42 = (some (.FinalizedNodeUnknown 42),
      { anchorState with finalized_epoch := 2, finalized_root := 42,
                         ffg_update_required := true }) ∧
    ({ anchorState with indices := [] } : ProtoArray).maybe_prune 0 1 =
      (some (.FinalizedNodeUnknown 1), { anchorState with indices := [] }) := by
  constructor
  · exact (maybe_prune_finalized_unknown anchorState 2 42).1 (by decide) (by decide)
  · exact (maybe_prune_finalized_unknown
      ({ anchorState with indices := [] }) 0 1).2 (by decide) (by decide) (by decide)

/-! ## C2: unknown parent in `on_new_block` -/

/-- C2 counterexample: calling `on_new_block` with a parent root that is absent
from the index map (and is not the anchor case, since a parent root is
supplied) does not fail with `UnknownParent`: it succeeds and appends a node. -/
theorem on_new_block_unknown_parent_cex :
    (anchorState.on_new_block 5 (some 99) 0 0).1 ≠ some .UnknownParent ∧
    (anchorState.on_new_block 5 (some 99) 0 0).1 = none ∧
    (anchorState.on_new_block 5 (some 99) 0 0).2.nodes.length =
      anchorState.nodes.length + 1 := by decide

/-- The node record that `on_new_block` appends when the parent lookup
resolves to `none`. -/
def freshNode (root je fe : Nat) : ProtoNode :=
  { root := root, parent := none, justified_epoch := je, finalized_epoch := fe,
    weight := 0, best_child := none, best_descendant := none }

/-- C2 amended: when `parent_root` is supplied but absent from the index map,
`on_new_block` succeeds, appending the node with `parent = none`. -/
theorem on_new_block_absent_parent (a : ProtoArray) (root proot je fe : Nat)
    (h : lookup a.indices proot = none) :
    (a.on_new_block root (some proot) je fe).1 = none ∧
    (a.on_new_block root (some proot) je fe).2 =
      { a with
        indices := insertMap a.indices root a.nodes.length
        nodes := a.nodes ++ [freshNode root je fe] } := by
  unfold ProtoArray.on_new_block freshNode
  simp only [Option.some_bind, h]
  split
  · exact ⟨rfl, rfl⟩
  · exact ⟨rfl, rfl⟩

/-- C2 amended witness at a concrete state. -/
theorem on_new_block_absent_parent_witness :
    (anchorState.on_new_block 7 (some 42) 0 0).1 = none ∧
    (anchorState.on_new_block 7 (some 42) 0 0).2 =
      { anchorState with
        indices := insertMap anchorState.indices 7 anchorState.nodes.length
        nodes := anchorState.nodes ++ [freshNode 7 0 0] } :=
  on_new_block_absent_parent anchorState 7 42 0 0 (by decide)

/-! ## C7: the FFG-update flag set by `maybe_prune` is ignored -/

/-- C7: `maybe_prune` advances the finalized pair on `flagState` and sets
`ffg_update_required`, but the subsequent `apply_score_changes` with an equal
`justified_epoch` overwrites the flag and does not run in FFG-update mode: the
anchor keeps `best_child = some 1` although node `1` is no longer viable
(its `finalized_epoch` is `0` while the engine's is `1`). -/
theorem ffg_flag_ignored_by_apply :
    (flagState.maybe_prune 1 1).1 = none ∧
    (flagState.maybe_prune 1 1).2.ffg_update_required = true ∧
    ((flagState.maybe_prune 1 1).2.apply_score_changes [0, 0] 0).1 = none ∧
    ((flagState.maybe_prune 1 1).2.apply_score_changes [0, 0] 0).2.nodes.get? 0 =
      some { root := 1, parent := none, justified_epoch := 0, finalized_epoch := 0,
             weight := 0, best_child := some 1, best_descendant := some 1 } ∧
    ((flagState.maybe_prune 1 1).2.apply_score_changes [0, 0] 0).2.nodes.get? 1 =
      some { root := 2, parent := some 0, justified_epoch := 0, finalized_epoch := 0,
             weight := 0, best_child := none, best_descendant := none } ∧
    ((flagState.maybe_prune 1 1).2.apply_score_changes
        [0, 0] 0).2.node_is_viable_for_head
      { root := 2, parent := some 0, justified_epoch := 0, finalized_epoch := 0,
        weight := 0, best_child := none, best_descendant := none } = false := by
  decide

/-! ## C8: the `InvalidDeltaLen` check -/

theorem applyStep_fst_ne_idl (a : ProtoArray) (d : List Int) (i x y : Nat) :
    (applyStep a d i).1 ≠ some (.InvalidDeltaLen x y) := by
  unfold applyStep ProtoArray.set_best_child
  simp only []
  repeat' split
  all_goals simp

theorem applyLoop_fst_ne_idl (L : List Nat) :
    ∀ (a : ProtoArray) (d : List Int) (x y : Nat),
      (applyLoop a d L).1 ≠ some (.InvalidDeltaLen x y) := by
  induction L with
  | nil => intro a d x y; simp [applyLoop]
  | cons i rest ih =>
    intro a d x y
    unfold applyLoop
    cases hstep : applyStep a d i with
    | mk e s =>
      cases e with
      | none =>
        cases s with
        | mk a' d' => simpa using ih a' d' x y
      | some err =>
        have hne := applyStep_fst_ne_idl a d i x y
        rw [hstep] at hne
        simpa using hne

/-- C8: with a consistent index map, `apply_score_changes` fails with
`InvalidDeltaLen` exactly when the delta vector's length differs from the
number of nodes, and on that failure the state is unchanged. -/
theorem apply_score_changes_delta_len (a : ProtoArray) (d : List Int) (e : Nat)
    (hlen : a.indices.length = a.nodes.length) :
    ((∃ x y, (a.apply_score_changes d e).1 = some (.InvalidDeltaLen x y)) ↔
      d.length ≠ a.nodes.length) ∧
    (d.length ≠ a.nodes.length →
      a.apply_score_changes d e = (some (.InvalidDeltaLen d.length a.indices.length), a)) := by
  have hguard : d.length ≠ a.nodes.length →
      a.apply_score_changes d e = (some (.InvalidDeltaLen d.length a.indices.length), a) := by
    intro hne
    unfold ProtoArray.apply_score_changes
    rw [if_pos (by omega)]
  refine ⟨⟨?_, fun hne => ⟨d.length, a.indices.length, by rw [hguard hne]⟩⟩, hguard⟩
  rintro ⟨x, y, hxy⟩
  intro heq
  unfold ProtoArray.apply_score_changes at hxy
  rw [if_neg (by omega)] at hxy
  simp only at hxy
  set a1 : ProtoArray := { a with
    ffg_update_required := decide (e ≠ a.justified_epoch),
    justified_epoch := if decide (e ≠ a.justified_epoch) = true then e
      else a.justified_epoch } with ha1
  cases hloop : applyLoop a1 d (revRange a1.nodes.length) with
  | mk eo s =>
    have hne := applyLoop_fst_ne_idl (revRange a1.nodes.length) a1 d x y
    rw [hloop] at hne
    cases eo with
    | none =>
      rw [hloop] at hxy
      cases s with
      | mk a' d' => simp at hxy
    | some err =>
      rw [hloop] at hxy
      cases s with
      | mk a' d' =>
        simp at hxy hne
        exact hne (by rw [hxy])

/-- C8 witness: an empty delta vector on the one-node `anchorState`. -/
theorem apply_score_changes_delta_len_witness :
    anchorState.apply_score_changes [] 0 =
      (some (.InvalidDeltaLen 0 1), anchorState) :=
  (apply_score_changes_delta_len anchorState [] 0 (by decide)).2 (by decide)

/-! ## C1: `find_head` -/

/-- C1: on a state whose index map and best-descendant pointers are in range,
`find_head r` fails with `JustifiedNodeUnknown` when `r` is absent from the
index map, fails with `InvalidFindHeadStartRoot` when the justified node's
epoch pair differs from the engine's, and otherwise returns the root of the
node at the justified node's `best_descendant` (the justified node itself when
that is `none`). -/
theorem find_head_spec (a : ProtoArray) (r : Nat)
    (hidx : a.indices.all (fun kv => decide (kv.2 < a.nodes.length)) = true)
    (hbd : a.nodes.all
      (fun nd => nd.best_descendant.all (fun b => decide (b < a.nodes.length))) = true) :
    (lookup a.indices r = none →
      a.find_head r = .error (.JustifiedNodeUnknown a.finalized_root)) ∧
    (∀ i nd, lookup a.indices r = some i → a.nodes.get? i = some nd →
      ((nd.justified_epoch ≠ a.justified_epoch ∨ nd.finalized_epoch ≠ a.finalized_epoch) →
        a.find_head r = .error .InvalidFindHeadStartRoot) ∧
      ((nd.justified_epoch = a.justified_epoch ∧ nd.finalized_epoch = a.finalized_epoch) →
        ∃ bn, a.nodes.get? (nd.best_descendant.getD i) = some bn ∧
          a.find_head r = .ok bn.root)) := by
  constructor
  · intro h
    unfold ProtoArray.find_head
    rw [h]
  · intro i nd hl hg
    constructor
    · intro hne
      unfold ProtoArray.find_head
      rw [hl]
      simp only
      rw [hg]
      simp only
      rw [if_pos hne]
    · rintro ⟨h1, h2⟩
      have hbdlt : nd.best_descendant.getD i < a.nodes.length := by
        cases hob : nd.best_descendant with
        | none =>
          simp only [hob, Option.getD_none]
          exact lookup_lt_of_all hidx hl
        | some b =>
          have hmem : nd ∈ a.nodes := by
            obtain ⟨hlt, hget⟩ := List.get?_eq_some.mp hg
            exact hget ▸ List.get_mem _ _ _
          have hnd := (List.all_eq_true.mp hbd) nd hmem
          rw [hob] at hnd
          simp only [Option.all, decide_eq_true_eq] at hnd
          simpa [hob] using hnd
      obtain ⟨bn, hbn⟩ : ∃ bn, a.nodes.get? (nd.best_descendant.getD i) = some bn :=
        ⟨_, List.get?_eq_get hbdlt⟩
      refine ⟨bn, hbn, ?_⟩
      unfold ProtoArray.find_head
      rw [hl]
      simp only
      rw [hg]
      simp only
      rw [if_neg (by tauto)]
      rw [hbn]

/-- C1 witness: an unknown root on `chainThree`. -/
theorem find_head_spec_witness :
    chainThree.find_head 99 = .error (.JustifiedNodeUnknown 1) :=
  (find_head_spec chainThree 99 (by decide) (by decide)).1 (by decide)

/-! ## C4: zero-delta `apply_score_changes` and head selection -/

/-- C4 counterexample: on the reachable state `chainThree` (anchor plus two
`on_new_block` calls), `find_head` returns root `2`, but after
`apply_score_changes` with an all-zero delta vector of the correct length and
the engine's own `justified_epoch` it returns root `3`: the call refreshed the
anchor's stale `best_descendant`, so it is not a no-op on head selection. -/
theorem apply_zeros_changes_head_cex :
    chainThree.find_head 1 = .ok 2 ∧
    (chainThree.apply_score_changes [0, 0, 0] 0).1 = none ∧
    List.length [(0 : Int), 0, 0] = chainThree.nodes.length ∧
    chainThree.justified_epoch = 0 ∧
    (chainThree.apply_score_changes [0, 0, 0] 0).2.find_head 1 = .ok 3 :=
  ⟨rfl, by decide, by decide, by decide, rfl⟩

/-! ## C3: best-child viability and best-descendant closure -/

/-- C3 counterexample: `on_new_block` is a successful public mutation after
which the best-descendant closure fails: on `chainThree` (built by appending
node `3` as a child of node `2` on `chainTwo`) the anchor has
`best_child = some 1` and `best_descendant = some 1`, while node `1` has
`best_descendant = some 2`, so `best_descendant[0] ≠ best_descendant[1].or(some 1)`. -/
theorem best_child_invariant_cex :
    (chainTwo.on_new_block 3 (some 2) 0 0).1 = none ∧
    ((chainTwo.on_new_block 3 (some 2) 0 0).2.nodes.get? 0).map
      (fun nd => nd.best_child) = some (some 1) ∧
    ((chainTwo.on_new_block 3 (some 2) 0 0).2.nodes.get? 0).map
      (fun nd => nd.best_descendant) = some (some 1) ∧
    ((chainTwo.on_new_block 3 (some 2) 0 0).2.nodes.get? 1).map
      (fun nd => nd.best_descendant) = some (some 2) ∧
    ((chainTwo.on_new_block 3 (some 2) 0 0).2.nodes.get? 0).map
        (fun nd => nd.best_descendant) ≠
      ((chainTwo.on_new_block 3 (some 2) 0 0).2.nodes.get? 1).map
        (fun nd => some (nd.best_descendant.getD 1)) := by
  decide

/-! ## Well-formedness predicates (decidable, for hypotheses and witnesses) -/

def nodesAllIdx (P : Nat → ProtoNode → Bool) : Nat → List ProtoNode → Bool
  | _, [] => true
  | i, nd :: rest => P i nd && nodesAllIdx P (i + 1) rest

theorem nodesAllIdx_get? {P : Nat → ProtoNode → Bool} :
    ∀ {ns : List ProtoNode} {k j : Nat} {nd : ProtoNode},
      nodesAllIdx P k ns = true → ns.get? j = some nd → P (k + j) nd = true := by
  intro ns
  induction ns with
  | nil => intro k j nd h hg; simp at hg
  | cons x xs ih =>
    intro k j nd h hg
    rw [nodesAllIdx, Bool.and_eq_true] at h
    cases j with
    | zero =>
      rw [List.get?_cons_zero] at hg
      cases hg
      simpa using h.1
    | succ r =>
      rw [List.get?_cons_succ] at hg
      have hr := ih h.2 hg
      have harith : k + 1 + r = k + (r + 1) := by omega
      rwa [harith] at hr

def topoB (ns : List ProtoNode) : Bool :=
  nodesAllIdx (fun i nd => nd.parent.all (fun q => decide (q < i))) 0 ns

theorem topoB_spec {ns : List ProtoNode} (h : topoB ns = true) {i : Nat} {nd : ProtoNode}
    {q : Nat} (hg : ns.get? i = some nd) (hp : nd.parent = some q) : q < i := by
  have hx := nodesAllIdx_get? h hg
  rw [hp] at hx
  simpa using hx

def coherentB (ns : List ProtoNode) : Bool :=
  nodesAllIdx (fun p pnd =>
    pnd.best_child.all (fun c =>
      match ns.get? c with
      | some cnd => cnd.parent == some p
      | none => false)) 0 ns

theorem coherentB_spec {ns : List ProtoNode} (h : coherentB ns = true) {p : Nat}
    {pnd : ProtoNode} {c : Nat} (hg : ns.get? p = some pnd)
    (hb : pnd.best_child = some c) :
    ∃ cnd, ns.get? c = some cnd ∧ cnd.parent = some p := by
  have hx := nodesAllIdx_get? h hg
  rw [hb] at hx
  simp only [Nat.zero_add, Option.all] at hx
  cases hc : ns.get? c with
  | none => rw [hc] at hx; simp at hx
  | some cnd =>
    rw [hc] at hx
    simp at hx
    exact ⟨cnd, rfl, hx⟩

def viableB (je fe : Nat) (nd : ProtoNode) : Bool :=
  decide (nd.justified_epoch = je) && decide (nd.finalized_epoch = fe)

def nonzeroRootsB (ns : List ProtoNode) : Bool :=
  ns.all (fun nd => decide (nd.root ≠ 0))

def viableBCB (je fe : Nat) (ns : List ProtoNode) : Bool :=
  ns.all (fun pnd => pnd.best_child.all (fun c =>
    match ns.get? c with
    | some cnd => viableB je fe cnd
    | none => false))

def closureB (ns : List ProtoNode) : Bool :=
  ns.all (fun pnd => pnd.best_child.all (fun c =>
    match ns.get? c with
    | some cnd => pnd.best_descendant == some (cnd.best_descendant.getD c)
    | none => false))

def maximalB (je fe : Nat) (ns : List ProtoNode) : Bool :=
  ns.all (fun nd =>
    match nd.parent with
    | none => true
    | some p =>
      if viableB je fe nd && decide (nd.root ≠ 0) then
        match ns.get? p with
        | some pnd =>
          match pnd.best_child with
          | some c =>
            match ns.get? c with
            | some cnd => cnd.is_better_than nd
            | none => false
          | none => false
        | none => false
      else true)

def weightsB (ns : List ProtoNode) : Bool :=
  ns.all (fun nd => decide (nd.weight ≤ u64max))

theorem mem_of_get? {ns : List ProtoNode} {i : Nat} {nd : ProtoNode}
    (h : ns.get? i = some nd) : nd ∈ ns := by
  obtain ⟨hlt, hget⟩ := List.get?_eq_some.mp h
  exact hget ▸ List.get_mem _ _ _

theorem viableBCB_spec {je fe : Nat} {ns : List ProtoNode}
    (h : viableBCB je fe ns = true) {p : Nat} {pnd : ProtoNode} {c : Nat}
    (hg : ns.get? p = some pnd) (hb : pnd.best_child = some c) {cnd : ProtoNode}
    (hc : ns.get? c = some cnd) : viableB je fe cnd = true := by
  have hx := (List.all_eq_true.mp h) pnd (mem_of_get? hg)
  rw [hb] at hx
  simp only [Option.all] at hx
  rw [hc] at hx
  exact hx

theorem closureB_spec {ns : List ProtoNode}
    (h : closureB ns = true) {p : Nat} {pnd : ProtoNode} {c : Nat}
    (hg : ns.get? p = some pnd) (hb : pnd.best_child = some c) {cnd : ProtoNode}
    (hc : ns.get? c = some cnd) :
    pnd.best_descendant = some (cnd.best_descendant.getD c) := by
  have hx := (List.all_eq_true.mp h) pnd (mem_of_get? hg)
  rw [hb] at hx
  simp only [Option.all] at hx
  rw [hc] at hx
  simpa using hx

theorem maximalB_spec {je fe : Nat} {ns : List ProtoNode}
    (h : maximalB je fe ns = true) {i : Nat} {nd : ProtoNode} {p : Nat}
    (hg : ns.get? i = some nd) (hp : nd.parent = some p)
    (hv : viableB je fe nd = true) (hz : nd.root ≠ 0) {pnd : ProtoNode}
    (hgp : ns.get? p = some pnd) :
    ∃ c cnd, pnd.best_child = some c ∧ ns.get? c = some cnd ∧
      cnd.is_better_than nd = true := by
  have hx := (List.all_eq_true.mp h) nd (mem_of_get? hg)
  rw [hp] at hx
  simp only at hx
  rw [if_pos (show (viableB je fe nd && decide (nd.root ≠ 0)) = true by simp [hv, hz])] at hx
  rw [hgp] at hx
  simp only at hx
  cases hbc : pnd.best_child with
  | none =>
    rw [hbc] at hx
    simp at hx
  | some c =>
    rw [hbc] at hx
    simp only at hx
    cases hc : ns.get? c with
    | none =>
      rw [hc] at hx
      simp at hx
    | some cnd =>
      rw [hc] at hx
      simp only at hx
      exact ⟨c, cnd, rfl, hc, hx⟩

theorem weightsB_spec {ns : List ProtoNode} (h : weightsB ns = true) {i : Nat}
    {nd : ProtoNode} (hg : ns.get? i = some nd) : nd.weight ≤ u64max := by
  have hx := (List.all_eq_true.mp h) nd (mem_of_get? hg)
  simpa using hx

theorem nonzeroRootsB_spec {ns : List ProtoNode} (h : nonzeroRootsB ns = true)
    {i : Nat} {nd : ProtoNode} (hg : ns.get? i = some nd) : nd.root ≠ 0 := by
  have hx := (List.all_eq_true.mp h) nd (mem_of_get? hg)
  simpa using hx

theorem roots_distinct {ns : List ProtoNode}
    (h : (ns.map (fun nd => nd.root)).Nodup) {i j : Nat} {a b : ProtoNode}
    (hne : i ≠ j) (ha : ns.get? i = some a) (hb : ns.get? j = some b) :
    a.root ≠ b.root := by
  intro hroot
  have hi : (ns.map (fun nd => nd.root)).get? i = some a.root := by
    rw [List.get?_map, ha]; rfl
  have hj : (ns.map (fun nd => nd.root)).get? j = some b.root := by
    rw [List.get?_map, hb]; rfl
  have hlt : i < (ns.map (fun nd => nd.root)).length := by
    rw [List.length_map]
    exact (List.get?_eq_some.mp ha).1
  exact hne (List.get?_inj hlt h (by rw [hi, hj, hroot]))

theorem is_better_than_asymm {x y : ProtoNode} (h : x.is_better_than y = true)
    (hr : x.root ≠ y.root) : y.is_better_than x = false := by
  unfold ProtoNode.is_better_than at h ⊢
  by_cases hw : x.weight = y.weight
  · rw [if_pos hw] at h
    rw [if_pos hw.symm]
    simp at h ⊢
    omega
  · rw [if_neg hw] at h
    rw [if_neg (Ne.symm hw)]
    simp at h ⊢
    omega

theorem applyStep_zeros_id (b : ProtoArray) (m : Nat)
    (hm : m < b.nodes.length)
    (hffg : b.ffg_update_required = false)
    (htopo : topoB b.nodes = true)
    (hcoh : coherentB b.nodes = true)
    (hviab : viableBCB b.justified_epoch b.finalized_epoch b.nodes = true)
    (hclos : closureB b.nodes = true)
    (hmax : maximalB b.justified_epoch b.finalized_epoch b.nodes = true)
    (hdist : (b.nodes.map (fun nd => nd.root)).Nodup)
    (hw : weightsB b.nodes = true) :
    applyStep b (List.replicate b.nodes.length 0) m =
      (none, (b, List.replicate b.nodes.length 0)) := by
  obtain ⟨nd, hnd⟩ : ∃ nd, b.nodes.get? m = some nd := ⟨_, List.get?_eq_get hm⟩
  have hset : b.nodes.set m ({ nd with weight := nd.weight }) = b.nodes := by
    have heta : ({ nd with weight := nd.weight } : ProtoNode) = nd := rfl
    rw [heta]
    exact list_set_self hnd
  have hB : ({ b with nodes := b.nodes } : ProtoArray) = b := rfl
  have hzm : (List.replicate b.nodes.length (0 : Int)).get? m = some 0 := by
    rw [List.get?_eq_getElem?, List.getElem?_replicate, if_pos hm]
  have happ : applyWeight nd.weight 0 = some nd.weight := by
    have hwle := weightsB_spec hw hnd
    unfold applyWeight checkedAdd
    rw [if_neg (by omega : ¬ (0 : Int) < 0)]
    simp [hwle]
  unfold applyStep
  rw [hnd]
  simp only
  by_cases hz : nd.root = 0
  · rw [if_pos hz]
  · rw [if_neg hz, hzm]
    simp only
    rw [happ]
    simp only
    rw [hset, hB]
    cases hp : nd.parent with
    | none => simp only
    | some p =>
      simp only
      have hplt : p < m := topoB_spec htopo hnd hp
      have hpl : p < b.nodes.length := lt_trans hplt hm
      have hzp : (List.replicate b.nodes.length (0 : Int)).get? p = some 0 := by
        rw [List.get?_eq_getElem?, List.getElem?_replicate, if_pos hpl]
      rw [hzp]
      simp only
      have hsetz : (List.replicate b.nodes.length (0 : Int)).set p (0 + 0) =
          List.replicate b.nodes.length 0 := by
        have hq : (0 : Int) + 0 = 0 := rfl
        rw [hq]
        exact list_set_self hzp
      rw [hsetz, hnd]
      simp only
      have hveq : b.node_is_viable_for_head nd =
          viableB b.justified_epoch b.finalized_epoch nd := rfl
      rw [hveq]
      by_cases hv : viableB b.justified_epoch b.finalized_epoch nd = true
      · rw [hv]
        simp only [if_true]
        obtain ⟨pnd, hpnd⟩ : ∃ pnd, b.nodes.get? p = some pnd :=
          ⟨_, List.get?_eq_get hpl⟩
        rw [hpnd]
        simp only
        obtain ⟨c, cnd, hbc, hcnd, hbetter⟩ := maximalB_spec hmax hnd hp hv hz hpnd
        rw [hbc]
        simp only
        by_cases hck : c = m
        · rw [if_pos hck]
          rw [hck] at hbc
          unfold ProtoArray.set_best_child
          rw [hnd, hpnd]
          simp only
          have hbd : pnd.best_descendant = some (nd.best_descendant.getD m) :=
            closureB_spec hclos hpnd hbc hnd
          have hpeq : ProtoNode.mk pnd.root pnd.parent pnd.justified_epoch
              pnd.finalized_epoch pnd.weight (some m)
              (some (nd.best_descendant.getD m)) = pnd := by
            cases pnd
            simp_all
          rw [hpeq, list_set_self hpnd, hB]
        · rw [if_neg hck]
          rw [hcnd]
          simp only
          have hvc : viableB b.justified_epoch b.finalized_epoch cnd = true :=
            viableBCB_spec hviab hpnd hbc hcnd
          have hvceq : b.node_is_viable_for_head cnd =
              viableB b.justified_epoch b.finalized_epoch cnd := rfl
          have hroots : cnd.root ≠ nd.root :=
            roots_distinct hdist hck hcnd hnd
          have hnb : nd.is_better_than cnd = false :=
            is_better_than_asymm hbetter hroots
          rw [hnb, hvceq, hvc]
          simp
      · have hvf : viableB b.justified_epoch b.finalized_epoch nd = false := by
          revert hv
          cases viableB b.justified_epoch b.finalized_epoch nd <;> simp
        rw [hvf, hffg]
        simp

theorem applyLoop_zeros_id (b : ProtoArray)
    (hffg : b.ffg_update_required = false)
    (htopo : topoB b.nodes = true)
    (hcoh : coherentB b.nodes = true)
    (hviab : viableBCB b.justified_epoch b.finalized_epoch b.nodes = true)
    (hclos : closureB b.nodes = true)
    (hmax : maximalB b.justified_epoch b.finalized_epoch b.nodes = true)
    (hdist : (b.nodes.map (fun nd => nd.root)).Nodup)
    (hw : weightsB b.nodes = true) :
    ∀ k, k ≤ b.nodes.length →
      applyLoop b (List.replicate b.nodes.length 0) (revRange k) =
        (none, (b, List.replicate b.nodes.length 0)) := by
  intro k
  induction k with
  | zero => intro _; rfl
  | succ m ih =>
    intro hle
    have hstep := applyStep_zeros_id b m (by omega) hffg htopo hcoh hviab hclos
      hmax hdist hw
    show applyLoop b _ (m :: revRange m) = _
    unfold applyLoop
    rw [hstep]
    exact ih (by omega)

/-- C4 amended: on a state whose best-child pointers already satisfy the
viability, closure and best-among-viable-siblings invariants (with distinct
roots and `u64`-bounded weights), `apply_score_changes` with an all-zero delta
vector and the engine's own `justified_epoch` leaves the whole state unchanged
(up to the cleared `ffg_update_required` flag) and hence does not change
`find_head`; on states with stale pointers — e.g. straight after
`on_new_block` — it may refresh them and change the head. -/
theorem apply_zeros_noop (a : ProtoArray)
    (hlen : a.indices.length = a.nodes.length)
    (htopo : topoB a.nodes = true)
    (hcoh : coherentB a.nodes = true)
    (hviab : viableBCB a.justified_epoch a.finalized_epoch a.nodes = true)
    (hclos : closureB a.nodes = true)
    (hmax : maximalB a.justified_epoch a.finalized_epoch a.nodes = true)
    (hdist : (a.nodes.map (fun nd => nd.root)).Nodup)
    (hw : weightsB a.nodes = true) :
    a.apply_score_changes (List.replicate a.nodes.length 0) a.justified_epoch =
      (none, { a with ffg_update_required := false }) ∧
    ∀ r, ({ a with ffg_update_required := false } : ProtoArray).find_head r =
      a.find_head r := by
  refine ⟨?_, fun r => rfl⟩
  unfold ProtoArray.apply_score_changes
  rw [if_neg (by simp [hlen])]
  simp only [ne_eq, eq_self_iff_true, decide_not, decide_True, Bool.not_true, ite_self, Bool.false_eq_true, if_false]
  have hloop := applyLoop_zeros_id ({ a with ffg_update_required := false }) rfl
    htopo hcoh hviab hclos hmax hdist hw a.nodes.length (le_refl _)
  simp only at hloop
  rw [hloop]

/-- C4 amended witness: on `anchorState` (whose pointers are up to date) the
zero-delta call changes nothing. -/
theorem apply_zeros_noop_witness :
    anchorState.apply_score_changes (List.replicate anchorState.nodes.length 0)
        anchorState.justified_epoch =
      (none, { anchorState with ffg_update_required := false }) ∧
    ({ anchorState with ffg_update_required := false } : ProtoArray).find_head 1 =
      anchorState.find_head 1 := by
  have h := apply_zeros_noop anchorState (by decide) (by decide) (by decide)
    (by decide) (by decide) (by decide) (by decide) (by decide)
  exact ⟨h.1, h.2 1⟩

/-! ## Lemmas on the pruning helpers of `maybe_prune` -/

theorem lookup_nil (r : Nat) : lookup [] r = none := rfl

theorem lookup_cons (x v r : Nat) (rest : List (Nat × Nat)) :
    lookup ((x, v) :: rest) r = if x = r then some v else lookup rest r := by
  unfold lookup
  rw [List.find?_cons]
  by_cases h : x = r
  · simp [h]
  · simp [h]

theorem lookup_removeKey (m : List (Nat × Nat)) (k r : Nat) :
    lookup (removeKey m k) r = if r = k then none else lookup m r := by
  induction m with
  | nil =>
    rw [lookup_nil]
    unfold removeKey
    rw [List.filter_nil, lookup_nil]
    split <;> rfl
  | cons kv rest ih =>
    obtain ⟨x, v⟩ := kv
    unfold removeKey at ih ⊢
    rw [List.filter_cons]
    by_cases hxk : x = k
    · rw [if_neg (by simp [hxk])]
      rw [ih, lookup_cons]
      by_cases hrk : r = k
      · rw [if_pos hrk, if_pos hrk]
      · rw [if_neg hrk, if_neg hrk, if_neg (by omega : ¬ x = r)]
    · rw [if_pos (by simp [hxk])]
      rw [lookup_cons, lookup_cons, ih]
      by_cases hxr : x = r
      · rw [if_pos hxr, if_pos hxr, if_neg (by omega : ¬ r = k)]
      · rw [if_neg hxr, if_neg hxr]

theorem removeLoop_success (nodes : List ProtoNode) :
    ∀ (l : List Nat) (ind : List (Nat × Nat)),
      (∀ j ∈ l, j < nodes.length) →
      ∃ ind', removeLoop nodes ind l = (none, ind') := by
  intro l
  induction l with
  | nil => intro ind _; exact ⟨ind, rfl⟩
  | cons j rest ih =>
    intro ind hl
    obtain ⟨nd, hnd⟩ : ∃ nd, nodes.get? j = some nd :=
      ⟨_, List.get?_eq_get (hl j (by simp))⟩
    obtain ⟨ind', hind'⟩ := ih (removeKey ind nd.root) (fun x hx => hl x (by simp [hx]))
    refine ⟨ind', ?_⟩
    unfold removeLoop
    rw [hnd]
    exact hind'

theorem removeLoop_lookup_kept (nodes : List ProtoNode) :
    ∀ (l : List Nat) (ind ind' : List (Nat × Nat)) (r : Nat),
      removeLoop nodes ind l = (none, ind') →
      (∀ j ∈ l, ∀ nd, nodes.get? j = some nd → nd.root ≠ r) →
      lookup ind' r = lookup ind r := by
  intro l
  induction l with
  | nil =>
    intro ind ind' r h _
    unfold removeLoop at h
    cases h
    rfl
  | cons j rest ih =>
    intro ind ind' r h hkeep
    unfold removeLoop at h
    cases hnd : nodes.get? j with
    | none => rw [hnd] at h; cases h
    | some nd =>
      rw [hnd] at h
      have hr := ih (removeKey ind nd.root) ind' r h
        (fun x hx nd' hnd' => hkeep x (by simp [hx]) nd' hnd')
      rw [hr, lookup_removeKey, if_neg ?_]
      intro hc
      exact hkeep j (by simp) nd hnd hc.symm

theorem removeLoop_lookup_none_mono (nodes : List ProtoNode) :
    ∀ (l : List Nat) (ind ind' : List (Nat × Nat)) (r : Nat),
      removeLoop nodes ind l = (none, ind') →
      lookup ind r = none → lookup ind' r = none := by
  intro l
  induction l with
  | nil =>
    intro ind ind' r h hn
    unfold removeLoop at h
    cases h
    exact hn
  | cons j rest ih =>
    intro ind ind' r h hn
    unfold removeLoop at h
    cases hnd : nodes.get? j with
    | none => rw [hnd] at h; cases h
    | some nd =>
      rw [hnd] at h
      refine ih (removeKey ind nd.root) ind' r h ?_
      rw [lookup_removeKey]
      split
      · rfl
      · exact hn

theorem removeLoop_lookup_removed (nodes : List ProtoNode) :
    ∀ (l : List Nat) (ind ind' : List (Nat × Nat)),
      removeLoop nodes ind l = (none, ind') →
      ∀ j ∈ l, ∀ nd, nodes.get? j = some nd → lookup ind' nd.root = none := by
  intro l
  induction l with
  | nil => intro ind ind' _ j hj; simp at hj
  | cons x rest ih =>
    intro ind ind' h j hj nd hnd
    unfold removeLoop at h
    cases hx : nodes.get? x with
    | none => rw [hx] at h; cases h
    | some ndx =>
      rw [hx] at h
      rcases List.mem_cons.mp hj with hjx | hjr
      · subst hjx
        rw [hx] at hnd
        cases hnd
        refine removeLoop_lookup_none_mono nodes rest _ _ _ h ?_
        rw [lookup_removeKey, if_pos rfl]
      · exact ih (removeKey ind ndx.root) ind' h j hjr nd hnd

theorem adjustIndices_none_iff (f : Nat) :
    ∀ m : List (Nat × Nat),
      (adjustIndices f m).1 = none ↔ ∀ kv ∈ m, f ≤ kv.2 := by
  intro m
  induction m with
  | nil => simp [adjustIndices]
  | cons kv rest ih =>
    obtain ⟨k, v⟩ := kv
    unfold adjustIndices
    by_cases hv : v < f
    · rw [if_pos hv]
      simp only [List.mem_cons]
      constructor
      · intro h; cases h
      · intro h
        have := h (k, v) (Or.inl rfl)
        omega
    · rw [if_neg hv]
      cases hrest : adjustIndices f rest with
      | mk e rest' =>
        simp only
        rw [hrest] at ih
        simp only at ih
        rw [ih]
        constructor
        · intro h kv hkv
          rcases List.mem_cons.mp hkv with h1 | h2
          · subst h1; simpa using by omega
          · exact h kv h2
        · intro h kv hkv
          exact h kv (by simp [hkv])

theorem adjustIndices_success (f : Nat) :
    ∀ m : List (Nat × Nat), (∀ kv ∈ m, f ≤ kv.2) →
      adjustIndices f m = (none, m.map (fun kv => (kv.1, kv.2 - f))) := by
  intro m
  induction m with
  | nil => intro _; rfl
  | cons kv rest ih =>
    intro h
    obtain ⟨k, v⟩ := kv
    unfold adjustIndices
    rw [if_neg (by have := h (k, v) (by simp); omega)]
    rw [ih (fun x hx => h x (by simp [hx]))]
    simp

theorem adjustIndices_err (f : Nat) :
    ∀ (m : List (Nat × Nat)) (e : PAError),
      (adjustIndices f m).1 = some e → e = .IndexOverflow "indices" := by
  intro m
  induction m with
  | nil => intro e h; simp [adjustIndices] at h
  | cons kv rest ih =>
    intro e h
    obtain ⟨k, v⟩ := kv
    unfold adjustIndices at h
    by_cases hv : v < f
    · rw [if_pos hv] at h
      simp at h
      exact h.symm
    · rw [if_neg hv] at h
      cases hrest : adjustIndices f rest with
      | mk e' rest' =>
        rw [hrest] at h
        simp at h
        subst h
        exact ih e (by rw [hrest])

theorem lookup_map_sub (f : Nat) :
    ∀ (m : List (Nat × Nat)) (r : Nat),
      lookup (m.map (fun kv => (kv.1, kv.2 - f))) r = (lookup m r).map (fun v => v - f) := by
  intro m
  induction m with
  | nil => intro r; rfl
  | cons kv rest ih =>
    intro r
    obtain ⟨k, v⟩ := kv
    rw [List.map_cons]
    rw [lookup_cons, lookup_cons]
    by_cases hk : k = r
    · rw [if_pos hk, if_pos hk]
      rfl
    · rw [if_neg hk, if_neg hk]
      exact ih r

theorem adjustNode_success (f : Nat) (nd : ProtoNode)
    (hbc : ∀ bc, nd.best_child = some bc → f ≤ bc)
    (hbd : ∀ bd, nd.best_descendant = some bd → f ≤ bd) :
    adjustNode f nd = (none, shiftNode f nd) := by
  unfold adjustNode shiftNode
  cases hc : nd.best_child with
  | none =>
    simp only
    cases hd : nd.best_descendant with
    | none => simp
    | some bd =>
      simp only
      rw [if_neg (by have := hbd bd hd; omega)]
      simp
  | some bc =>
    simp only
    rw [if_neg (by have := hbc bc hc; omega)]
    cases hd : nd.best_descendant with
    | none => simp
    | some bd =>
      simp only
      rw [if_neg (by have := hbd bd hd; omega)]
      simp

theorem adjustNode_err (f : Nat) (nd : ProtoNode) (e : PAError)
    (h : (adjustNode f nd).1 = some e) : ∃ s, e = .IndexOverflow s := by
  unfold adjustNode at h
  cases hc : nd.best_child with
  | none =>
    rw [hc] at h
    simp only at h
    cases hd : nd.best_descendant with
    | none => rw [hd] at h; simp at h
    | some bd =>
      rw [hd] at h
      simp only at h
      by_cases hlt : bd < f
      · rw [if_pos hlt] at h
        simp at h
        first
          | exact ⟨_, h⟩
          | exact ⟨_, h.symm⟩
      · rw [if_neg hlt] at h
        simp at h
  | some bc =>
    rw [hc] at h
    simp only at h
    by_cases hltc : bc < f
    · rw [if_pos hltc] at h
      simp at h
      first
        | exact ⟨_, h⟩
        | exact ⟨_, h.symm⟩
    · rw [if_neg hltc] at h
      cases hd : nd.best_descendant with
      | none => rw [hd] at h; simp at h
      | some bd =>
        rw [hd] at h
        simp only at h
        by_cases hlt : bd < f
        · rw [if_pos hlt] at h
          simp at h
          first
            | exact ⟨_, h⟩
            | exact ⟨_, h.symm⟩
        · rw [if_neg hlt] at h
          simp at h

theorem adjustNode_none_bounds (f : Nat) (nd : ProtoNode)
    (h : (adjustNode f nd).1 = none) :
    (∀ bc, nd.best_child = some bc → f ≤ bc) ∧
    (∀ bd, nd.best_descendant = some bd → f ≤ bd) := by
  unfold adjustNode at h
  constructor
  · intro bc hbc
    rw [hbc] at h
    simp only at h
    by_cases hlt : bc < f
    · rw [if_pos hlt] at h; simp at h
    · omega
  · intro bd hbd
    cases hc : nd.best_child with
    | none =>
      rw [hc] at h
      simp only at h
      rw [hbd] at h
      simp only at h
      by_cases hlt : bd < f
      · rw [if_pos hlt] at h; simp at h
      · omega
    | some bc =>
      rw [hc] at h
      simp only at h
      by_cases hltc : bc < f
      · rw [if_pos hltc] at h; simp at h
      · rw [if_neg hltc] at h
        rw [hbd] at h
        simp only at h
        by_cases hlt : bd < f
        · rw [if_pos hlt] at h; simp at h
        · omega

theorem adjustNodes_success (f : Nat) :
    ∀ l : List ProtoNode,
      (∀ nd ∈ l, (∀ bc, nd.best_child = some bc → f ≤ bc) ∧
        (∀ bd, nd.best_descendant = some bd → f ≤ bd)) →
      adjustNodes f l = (none, l.map (shiftNode f)) := by
  intro l
  induction l with
  | nil => intro _; rfl
  | cons nd rest ih =>
    intro h
    unfold adjustNodes
    rw [adjustNode_success f nd (h nd (by simp)).1 (h nd (by simp)).2]
    rw [ih (fun x hx => h x (by simp [hx]))]
    simp

theorem adjustNodes_none_bounds (f : Nat) :
    ∀ l : List ProtoNode, (adjustNodes f l).1 = none →
      ∀ nd ∈ l, (∀ bc, nd.best_child = some bc → f ≤ bc) ∧
        (∀ bd, nd.best_descendant = some bd → f ≤ bd) := by
  intro l
  induction l with
  | nil => intro _ nd hnd; simp at hnd
  | cons x rest ih =>
    intro h nd hnd
    unfold adjustNodes at h
    cases hx : adjustNode f x with
    | mk e x' =>
      rw [hx] at h
      cases e with
      | some e' => simp at h
      | none =>
        cases hrest : adjustNodes f rest with
        | mk e2 rest' =>
          rw [hrest] at h
          simp only at h
          rcases List.mem_cons.mp hnd with h1 | h2
          · subst h1
            exact adjustNode_none_bounds f nd (by rw [hx])
          · exact ih (by rw [hrest]; exact h) nd h2

theorem adjustNodes_err (f : Nat) :
    ∀ (l : List ProtoNode) (e : PAError),
      (adjustNodes f l).1 = some e → ∃ s, e = .IndexOverflow s := by
  intro l
  induction l with
  | nil => intro e h; simp [adjustNodes] at h
  | cons x rest ih =>
    intro e h
    unfold adjustNodes at h
    cases hx : adjustNode f x with
    | mk e1 x' =>
      rw [hx] at h
      cases e1 with
      | some e' =>
        simp at h
        rcases h with rfl
        exact adjustNode_err f x _ (by rw [hx])
      | none =>
        cases hrest : adjustNodes f rest with
        | mk e2 rest' =>
          rw [hrest] at h
          simp only at h
          rcases h with rfl
          exact ih _ (by rw [hrest])

theorem lookup_mem {m : List (Nat × Nat)} {r i : Nat} (h : lookup m r = some i) :
    ∃ kv, kv ∈ m ∧ kv.2 = i := by
  unfold lookup at h
  cases hf : m.find? (fun p => p.1 = r) with
  | none => rw [hf] at h; cases h
  | some kv =>
    rw [hf] at h
    simp at h
    exact ⟨kv, List.mem_of_find?_eq_some hf, h⟩

/-- C6: behaviour of a `maybe_prune` call that passes the guards and resolves
the finalized root to index `f`.  If `f` is below `prune_threshold` the call
returns successfully without compacting.  Otherwise, on success: the array
becomes the old suffix from `f` shifted down by `f` (so the finalized node is
index 0, `parent` underflow becomes `none`), every surviving `best_child` and
`best_descendant` was at least `f`, the pruned roots are gone from the index
map, and every kept index-map entry is decreased by `f`.  Any failure past the
guards with `f` within bounds is an `IndexOverflow`. -/
theorem maybe_prune_compaction (a : ProtoArray) (fe fr f : Nat)
    (hge : a.finalized_epoch ≤ fe)
    (hroot : fe = a.finalized_epoch → fr = a.finalized_root)
    (hidx : lookup (pruneUpdate a fe fr).indices (pruneUpdate a fe fr).finalized_root =
      some f) :
    (f < a.prune_threshold → a.maybe_prune fe fr = (none, pruneUpdate a fe fr)) ∧
    (a.prune_threshold ≤ f → (a.maybe_prune fe fr).1 = none →
      (a.maybe_prune fe fr).2.nodes = (a.nodes.drop f).map (shiftNode f) ∧
      (a.maybe_prune fe fr).2.nodes.get? 0 = (a.nodes.get? f).map (shiftNode f) ∧
      (∀ nd ∈ a.nodes.drop f,
        (∀ bc, nd.best_child = some bc → f ≤ bc) ∧
        (∀ bd, nd.best_descendant = some bd → f ≤ bd)) ∧
      (∀ j, j < f → ∀ nd, a.nodes.get? j = some nd →
        lookup (a.maybe_prune fe fr).2.indices nd.root = none) ∧
      (∀ r i, lookup a.indices r = some i →
        (∀ j, j < f → ∀ nd, a.nodes.get? j = some nd → nd.root ≠ r) →
        f ≤ i ∧ lookup (a.maybe_prune fe fr).2.indices r = some (i - f))) ∧
    (a.prune_threshold ≤ f → f ≤ a.nodes.length →
      ∀ e, (a.maybe_prune fe fr).1 = some e → ∃ s, e = .IndexOverflow s) := by
  have hg1 : ¬(fe = a.finalized_epoch ∧ a.finalized_root ≠ fr) := by
    rintro ⟨h1, h2⟩
    exact h2 (hroot h1).symm
  have hg2 : ¬ fe < a.finalized_epoch := by omega
  have hpt : (pruneUpdate a fe fr).prune_threshold = a.prune_threshold := by
    unfold pruneUpdate; split <;> rfl
  have hin : (pruneUpdate a fe fr).indices = a.indices := by
    unfold pruneUpdate; split <;> rfl
  have hns : (pruneUpdate a fe fr).nodes = a.nodes := by
    unfold pruneUpdate; split <;> rfl
  refine ⟨?_, ?_, ?_⟩
  · intro hlt
    unfold ProtoArray.maybe_prune
    rw [if_neg hg1, if_neg hg2]
    simp only
    rw [hidx]
    simp only
    rw [hpt, if_pos hlt]
  · intro hthr hsucc
    unfold ProtoArray.maybe_prune at hsucc ⊢
    rw [if_neg hg1, if_neg hg2] at hsucc ⊢
    simp only at hsucc ⊢
    rw [hidx] at hsucc ⊢
    simp only at hsucc ⊢
    rw [hpt, if_neg (by omega)] at hsucc ⊢
    rw [hns, hin] at hsucc ⊢
    cases hrem : removeLoop a.nodes a.indices (List.range f) with
    | mk e1 ind' =>
      rw [hrem] at hsucc
      cases e1 with
      | some e' => simp at hsucc
      | none =>
        simp only at hsucc ⊢
        cases hadj : adjustIndices f ind' with
        | mk e2 ind2 =>
          rw [hadj] at hsucc
          cases e2 with
          | some e' => simp at hsucc
          | none =>
            simp only at hsucc ⊢
            cases hnodes : adjustNodes f (a.nodes.drop f) with
            | mk e3 nodes' =>
              rw [hnodes] at hsucc
              cases e3 with
              | some e' => simp at hsucc
              | none =>
                simp only
                have hbounds := adjustNodes_none_bounds f (a.nodes.drop f)
                  (by rw [hnodes])
                have hnodes' : nodes' = (a.nodes.drop f).map (shiftNode f) := by
                  have := adjustNodes_success f (a.nodes.drop f) hbounds
                  rw [hnodes] at this
                  exact (Prod.mk.injEq _ _ _ _).mp this |>.2
                have hvals : ∀ kv ∈ ind', f ≤ kv.2 :=
                  (adjustIndices_none_iff f ind').mp (by rw [hadj])
                have hind2 : ind2 = ind'.map (fun kv => (kv.1, kv.2 - f)) := by
                  have := adjustIndices_success f ind' hvals
                  rw [hadj] at this
                  exact (Prod.mk.injEq _ _ _ _).mp this |>.2
                refine ⟨?_, ?_, ?_, ?_, ?_⟩
                · exact hnodes'
                · rw [hnodes', List.get?_map, List.get?_drop, Nat.add_zero]
                · exact hbounds
                · intro j hj nd hnd
                  have hrm := removeLoop_lookup_removed a.nodes (List.range f)
                    a.indices ind' hrem j (List.mem_range.mpr hj) nd hnd
                  rw [hind2, lookup_map_sub, hrm]
                  rfl
                · intro r i hl hkeep
                  have hkept := removeLoop_lookup_kept a.nodes (List.range f)
                    a.indices ind' r hrem
                    (fun j hj nd hnd => hkeep j (List.mem_range.mp hj) nd hnd)
                  rw [hl] at hkept
                  constructor
                  · obtain ⟨kv, hkv, hkv2⟩ := lookup_mem hkept
                    have := hvals kv hkv
                    omega
                  · rw [hind2, lookup_map_sub, hkept]
                    rfl
  · intro hthr hlen e he
    unfold ProtoArray.maybe_prune at he
    rw [if_neg hg1, if_neg hg2] at he
    simp only at he
    rw [hidx] at he
    simp only at he
    rw [hpt, if_neg (by omega)] at he
    rw [hns, hin] at he
    obtain ⟨ind', hrem⟩ := removeLoop_success a.nodes (List.range f) a.indices
      (fun j hj => lt_of_lt_of_le (List.mem_range.mp hj) hlen)
    rw [hrem] at he
    simp only at he
    cases hadj : adjustIndices f ind' with
    | mk e2 ind2 =>
      rw [hadj] at he
      cases e2 with
      | some e' =>
        simp at he
        rcases he with rfl
        exact ⟨"indices", adjustIndices_err f ind' _ (by rw [hadj])⟩
      | none =>
        simp only at he
        cases hnodes : adjustNodes f (a.nodes.drop f) with
        | mk e3 nodes' =>
          rw [hnodes] at he
          cases e3 with
          | some e' =>
            simp at he
            rcases he with rfl
            exact adjustNodes_err f (a.nodes.drop f) _ (by rw [hnodes])
          | none => simp at he

/-- A three-node chain used to exercise an actual compaction. -/
def pruneState : ProtoArray :=
  { prune_threshold := 0
    ffg_update_required := false
    justified_epoch := 0
    finalized_epoch := 0
    finalized_root := 1
    nodes := [{ root := 1, parent := none, justified_epoch := 0, finalized_epoch := 0,
                weight := 0, best_child := some 1, best_descendant := some 2 },
              { root := 2, parent := some 0, justified_epoch := 0, finalized_epoch := 0,
                weight := 0, best_child := some 2, best_descendant := some 2 },
              { root := 3, parent := some 1, justified_epoch := 0, finalized_epoch := 0,
                weight := 0, best_child := none, best_descendant := none }]
    indices := [(1, 0), (2, 1), (3, 2)] }

/-- C6 witness: finalizing `pruneState` at root `2` (index 1) compacts the
array by one slot. -/
theorem maybe_prune_compaction_witness :
    (pruneState.maybe_prune 1 2).2.nodes =
      (pruneState.nodes.drop 1).map (shiftNode 1) ∧
    (pruneState.maybe_prune 1 2).2.nodes.get? 0 =
      (pruneState.nodes.get? 1).map (shiftNode 1) := by
  have h := (maybe_prune_compaction pruneState 1 2 1 (by decide) (by decide)
    (by decide)).2.1 (by decide) (by decide)
  exact ⟨h.1, h.2.1⟩

/-! ## The loop invariant for `apply_score_changes` in FFG-update mode -/

/-- The parts of the state that the reverse loop never changes: lengths,
epochs, the FFG flag, and each node's `root`, `parent` and epochs. -/
def NodesSkeleton (pre s : ProtoArray) : Prop :=
  s.nodes.length = pre.nodes.length ∧
  s.justified_epoch = pre.justified_epoch ∧
  s.finalized_epoch = pre.finalized_epoch ∧
  s.ffg_update_required = true ∧
  ∀ i nd, s.nodes.get? i = some nd → ∃ nd0, pre.nodes.get? i = some nd0 ∧
    nd.root = nd0.root ∧ nd.parent = nd0.parent ∧
    nd.justified_epoch = nd0.justified_epoch ∧ nd.finalized_epoch = nd0.finalized_epoch

/-- Best-child facts during the loop: indices `≥ k` are already processed, so
their parents' pointers are viable and closed; a pointer to an unprocessed
index `< k` is untouched from the pre-state. -/
def BCInv (pre s : ProtoArray) (k : Nat) : Prop :=
  ∀ p pnd c, s.nodes.get? p = some pnd → pnd.best_child = some c →
    (k ≤ c → c < s.nodes.length ∧
      ∀ cnd, s.nodes.get? c = some cnd →
        (cnd.justified_epoch = s.justified_epoch ∧
         cnd.finalized_epoch = s.finalized_epoch) ∧
        pnd.best_descendant = some (cnd.best_descendant.getD c)) ∧
    (c < k → ∃ pnd0, pre.nodes.get? p = some pnd0 ∧ pnd0.best_child = some c ∧
      pnd.best_descendant = pnd0.best_descendant)

def LoopInv (pre s : ProtoArray) (k : Nat) : Prop :=
  NodesSkeleton pre s ∧ BCInv pre s k

/-- Replacing node `j` with a node of equal `root`, `parent` and epochs
preserves the skeleton. -/
theorem skeleton_set {pre s : ProtoArray} {j : Nat} {nd nd' : ProtoNode}
    (hs : NodesSkeleton pre s) (hnd : s.nodes.get? j = some nd)
    (hroot : nd'.root = nd.root) (hpar : nd'.parent = nd.parent)
    (hje : nd'.justified_epoch = nd.justified_epoch)
    (hfe : nd'.finalized_epoch = nd.finalized_epoch) :
    NodesSkeleton pre { s with nodes := s.nodes.set j nd' } := by
  obtain ⟨hlen, h1, h2, h3, hfields⟩ := hs
  refine ⟨by simpa using hlen, h1, h2, h3, ?_⟩
  intro i x hx
  by_cases hij : j = i
  · subst hij
    rw [List.get?_set_eq, hnd] at hx
    simp at hx
    obtain ⟨nd0, hnd0, hr, hpp, hj0, hf0⟩ := hfields j nd hnd
    subst hx
    exact ⟨nd0, hnd0, by rw [hroot, hr], by rw [hpar, hpp],
      by rw [hje, hj0], by rw [hfe, hf0]⟩
  · rw [List.get?_set_ne _ _ hij] at hx
    exact hfields i x hx

/-- Replacing node `j` with a node of equal `best_child` and `best_descendant`
(and any weight) preserves the best-child facts. -/
theorem bcinv_set_same_ptrs {pre s : ProtoArray} {k j : Nat} {nd nd' : ProtoNode}
    (hb : BCInv pre s k) (hnd : s.nodes.get? j = some nd)
    (hbc : nd'.best_child = nd.best_child)
    (hbd : nd'.best_descendant = nd.best_descendant)
    (hje : nd'.justified_epoch = nd.justified_epoch)
    (hfe : nd'.finalized_epoch = nd.finalized_epoch) :
    BCInv pre { s with nodes := s.nodes.set j nd' } k := by
  intro p pnd c hg hbcp
  have hget : ∀ i x, (s.nodes.set j nd').get? i = some x →
      (i ≠ j ∧ s.nodes.get? i = some x) ∨ (i = j ∧ x = nd') := by
    intro i x hx
    by_cases hij : i = j
    · subst hij
      rw [List.get?_set_eq, hnd] at hx
      simp at hx
      exact Or.inr ⟨rfl, hx.symm⟩
    · rw [List.get?_set_ne _ _ (fun hc => hij hc.symm)] at hx
      exact Or.inl ⟨hij, hx⟩
  have hpnd : ∃ q, s.nodes.get? p = some q ∧ q.best_child = pnd.best_child ∧
      q.best_descendant = pnd.best_descendant := by
    rcases hget p pnd hg with ⟨_, hq⟩ | ⟨hpj, hx⟩
    · exact ⟨pnd, hq, rfl, rfl⟩
    · subst hpj
      subst hx
      exact ⟨nd, hnd, hbc.symm, hbd.symm⟩
  obtain ⟨q, hq, hqbc, hqbd⟩ := hpnd
  have hinv := hb p q c hq (by rw [hqbc, hbcp])
  constructor
  · intro hkc
    refine ⟨by simpa using (hinv.1 hkc).1, ?_⟩
    intro cnd hcnd
    rcases hget c cnd hcnd with ⟨_, hc⟩ | ⟨hcj, hx⟩
    · have := (hinv.1 hkc).2 cnd hc
      simp only
      rw [← hqbd]
      exact this
    · subst hcj
      subst hx
      have := (hinv.1 hkc).2 nd hnd
      simp only
      rw [← hqbd, hje, hfe, hbd]
      exact this
  · intro hck
    obtain ⟨pnd0, h1, h2, h3⟩ := hinv.2 hck
    exact ⟨pnd0, h1, h2, by rw [← hqbd, h3]⟩

/-- A best-child pointer to a not-yet-processed index `k` can only come from
`k`'s own parent in the pre-state. -/
theorem ptr_to_k {pre s : ProtoArray} {k p : Nat} {pnd : ProtoNode}
    (hcoh : coherentB pre.nodes = true)
    (hinv : LoopInv pre s (k + 1))
    (hg : s.nodes.get? p = some pnd) (hb : pnd.best_child = some k) :
    ∃ nd0, pre.nodes.get? k = some nd0 ∧ nd0.parent = some p := by
  obtain ⟨pnd0, hp0, hb0, _⟩ := (hinv.2 p pnd k hg hb).2 (by omega)
  exact coherentB_spec hcoh hp0 hb0

/-- Advance the processed boundary from `k + 1` to `k` when no node of `s`
has `best_child = some k`. -/
theorem boundary_advance {pre s : ProtoArray} {k : Nat}
    (hb : BCInv pre s (k + 1))
    (hnone : ∀ p pnd, s.nodes.get? p = some pnd → pnd.best_child ≠ some k) :
    BCInv pre s k := by
  intro p pnd c hg hbc
  have hinv := hb p pnd c hg hbc
  constructor
  · intro hkc
    rcases Nat.eq_or_lt_of_le hkc with hck | hck
    · exact absurd hbc (hck ▸ hnone p pnd hg)
    · exact hinv.1 hck
  · intro hck
    exact hinv.2 (by omega)

/-- Processing a node whose parent is `none` leaves the state unchanged, and
nothing can point to it. -/
theorem orphan_case {pre s : ProtoArray} {k : Nat} {nd : ProtoNode}
    (hcoh : coherentB pre.nodes = true)
    (hskel : NodesSkeleton pre s) (hbinv : BCInv pre s (k + 1))
    (hnd : s.nodes.get? k = some nd) (hp : nd.parent = none) :
    LoopInv pre s k := by
  refine ⟨hskel, boundary_advance hbinv ?_⟩
  intro p pnd hg hbc
  obtain ⟨nd0, hk0, hk0p⟩ := ptr_to_k hcoh ⟨hskel, hbinv⟩ hg hbc
  obtain ⟨nd0', hnd0', _, hpar0, _, _⟩ := hskel.2.2.2.2 k nd hnd
  rw [hnd0'] at hk0
  cases hk0
  rw [hp] at hpar0
  rw [← hpar0] at hk0p
  cases hk0p

/-- Processing a node whose parent's best child is a different, not-yet-
processed index leaves the state unchanged and the invariant advances. -/
theorem nochange_case {pre s : ProtoArray} {k p₀ : Nat} {nd pn : ProtoNode}
    (hcoh : coherentB pre.nodes = true)
    (hskel : NodesSkeleton pre s) (hbinv : BCInv pre s (k + 1))
    (hnd : s.nodes.get? k = some nd) (hp : nd.parent = some p₀)
    (hpn : s.nodes.get? p₀ = some pn)
    (hbck : pn.best_child ≠ some k) :
    LoopInv pre s k := by
  refine ⟨hskel, boundary_advance hbinv ?_⟩
  intro p pnd hg hbc
  obtain ⟨nd0, hk0, hk0p⟩ := ptr_to_k hcoh ⟨hskel, hbinv⟩ hg hbc
  obtain ⟨nd0', hnd0', _, hpar0, _, _⟩ := hskel.2.2.2.2 k nd hnd
  rw [hnd0'] at hk0
  cases hk0
  rw [hp] at hpar0
  rw [← hpar0] at hk0p
  cases hk0p
  rw [hpn] at hg
  cases hg
  exact hbck hbc

/-- The FFG-mode clearing of a stale best child preserves the invariant. -/
theorem clear_case {pre s : ProtoArray} {k p₀ : Nat} {nd pn : ProtoNode}
    (hcoh : coherentB pre.nodes = true)
    (hskel : NodesSkeleton pre s) (hbinv : BCInv pre s (k + 1))
    (hnd : s.nodes.get? k = some nd) (hp : nd.parent = some p₀) (hp₀k : p₀ < k)
    (hpn : s.nodes.get? p₀ = some pn) :
    LoopInv pre { s with nodes := s.nodes.set p₀ ({ pn with best_child := none, best_descendant := none }) } k := by
  constructor
  · exact skeleton_set hskel hpn rfl rfl rfl rfl
  · intro p pnd c hg hbc
    by_cases hpp : p = p₀
    · subst hpp
      rw [List.get?_set_eq, hpn] at hg
      simp at hg
      subst hg
      simp at hbc
    · rw [List.get?_set_ne _ _ (fun hc => hpp hc.symm)] at hg
      have hinv := hbinv p pnd c hg hbc
      constructor
      · intro hkc
        rcases Nat.eq_or_lt_of_le hkc with hck | hck
        · obtain ⟨nd0, hk0, hk0p⟩ := ptr_to_k hcoh ⟨hskel, hbinv⟩ hg (hck ▸ hbc)
          obtain ⟨nd0', hnd0', _, hpar0, _, _⟩ := hskel.2.2.2.2 k nd hnd
          rw [hnd0'] at hk0
          cases hk0
          rw [hp] at hpar0
          rw [← hpar0] at hk0p
          cases hk0p
          exact absurd rfl hpp
        · have hA := hinv.1 hck
          refine ⟨by simpa using hA.1, ?_⟩
          intro cnd hcnd
          rw [List.get?_set_ne _ _ (by omega : p₀ ≠ c)] at hcnd
          exact hA.2 cnd hcnd
      · intro hck
        exact hinv.2 (by omega)

/-- Installing the processed, viable node `k` as its parent's best child
(re)establishes the invariant at the parent. -/
theorem install_case {pre s : ProtoArray} {k p₀ : Nat} {nd pn : ProtoNode}
    (hcoh : coherentB pre.nodes = true)
    (hk : k < pre.nodes.length)
    (hskel : NodesSkeleton pre s) (hbinv : BCInv pre s (k + 1))
    (hnd : s.nodes.get? k = some nd)
    (hp : nd.parent = some p₀) (hp₀k : p₀ < k)
    (hpn : s.nodes.get? p₀ = some pn)
    (hvj : nd.justified_epoch = s.justified_epoch)
    (hvf : nd.finalized_epoch = s.finalized_epoch) :
    LoopInv pre { s with nodes := s.nodes.set p₀ ({ pn with best_child := some k, best_descendant := some (nd.best_descendant.getD k) }) } k := by
  constructor
  · exact skeleton_set hskel hpn rfl rfl rfl rfl
  · intro p pnd c hg hbc
    by_cases hpp : p = p₀
    · subst hpp
      rw [List.get?_set_eq, hpn] at hg
      simp at hg
      subst hg
      simp at hbc
      subst hbc
      constructor
      · intro _
        have hlen := hskel.1
        refine ⟨by simpa [hlen] using hk, ?_⟩
        intro cnd hcnd
        rw [List.get?_set_ne _ _ (by omega : p ≠ k), hnd] at hcnd
        cases hcnd
        exact ⟨⟨hvj, hvf⟩, rfl⟩
      · intro hck
        omega
    · rw [List.get?_set_ne _ _ (fun hc => hpp hc.symm)] at hg
      have hinv := hbinv p pnd c hg hbc
      constructor
      · intro hkc
        rcases Nat.eq_or_lt_of_le hkc with hck | hck
        · obtain ⟨nd0, hk0, hk0p⟩ := ptr_to_k hcoh ⟨hskel, hbinv⟩ hg (hck ▸ hbc)
          obtain ⟨nd0', hnd0', _, hpar0, _, _⟩ := hskel.2.2.2.2 k nd hnd
          rw [hnd0'] at hk0
          cases hk0
          rw [hp] at hpar0
          rw [← hpar0] at hk0p
          cases hk0p
          exact absurd rfl hpp
        · have hA := hinv.1 hck
          refine ⟨by simpa using hA.1, ?_⟩
          intro cnd hcnd
          rw [List.get?_set_ne _ _ (by omega : p₀ ≠ c)] at hcnd
          exact hA.2 cnd hcnd
      · intro hck
        exact hinv.2 (by omega)

/-- One successful iteration of the reverse loop advances the invariant
boundary from `k + 1` to `k`. -/
theorem applyStep_inv (pre s : ProtoArray) (d : List Int) (k : Nat)
    (htopo : topoB pre.nodes = true)
    (hcoh : coherentB pre.nodes = true)
    (hnz : nonzeroRootsB pre.nodes = true)
    (hk : k < pre.nodes.length)
    (hinv : LoopInv pre s (k + 1))
    {s₁ : ProtoArray} {d₁ : List Int}
    (hstep : applyStep s d k = (none, (s₁, d₁))) :
    LoopInv pre s₁ k := by
  obtain ⟨hskel, hbinv⟩ := hinv
  have hlen := hskel.1
  have hffg := hskel.2.2.2.1
  obtain ⟨nd, hnd⟩ : ∃ nd, s.nodes.get? k = some nd :=
    ⟨_, List.get?_eq_get (by omega)⟩
  obtain ⟨nd0, hnd0, hroot0, hpar0, hje0, hfe0⟩ := hskel.2.2.2.2 k nd hnd
  have hz : nd.root ≠ 0 := by rw [hroot0]; exact nonzeroRootsB_spec hnz hnd0
  unfold applyStep at hstep
  rw [hnd] at hstep
  simp only at hstep
  rw [if_neg hz] at hstep
  cases hdk : d.get? k with
  | none => rw [hdk] at hstep; cases hstep
  | some δ =>
    rw [hdk] at hstep
    simp only at hstep
    cases happ : applyWeight nd.weight δ with
    | none => rw [happ] at hstep; cases hstep
    | some w =>
      rw [happ] at hstep
      simp only at hstep
      cases hp : nd.parent with
      | none =>
        rw [hp] at hstep
        simp only [Prod.mk.injEq, true_and] at hstep
        obtain ⟨hs1, hd1⟩ := hstep
        subst hs1
        exact orphan_case hcoh
          (skeleton_set hskel hnd rfl hp.symm rfl rfl)
          (bcinv_set_same_ptrs hbinv hnd rfl rfl rfl rfl)
          (by rw [List.get?_set_eq, hnd]; rfl) rfl
      | some p₀ =>
        rw [hp] at hstep
        simp only at hstep
        have hp₀k : p₀ < k := topoB_spec htopo hnd0 (by rw [← hpar0, hp])
        have hndW : (s.nodes.set k (ProtoNode.mk nd.root (some p₀)
            nd.justified_epoch nd.finalized_epoch w nd.best_child
            nd.best_descendant)).get? k = some (ProtoNode.mk nd.root (some p₀)
            nd.justified_epoch nd.finalized_epoch w nd.best_child
            nd.best_descendant) := by
          rw [List.get?_set_eq, hnd]; rfl
        have hskelW : NodesSkeleton pre { s with nodes := s.nodes.set k (ProtoNode.mk nd.root (some p₀) nd.justified_epoch nd.finalized_epoch w nd.best_child nd.best_descendant) } :=
          skeleton_set hskel hnd rfl hp.symm rfl rfl
        have hbinvW : BCInv pre { s with nodes := s.nodes.set k (ProtoNode.mk nd.root (some p₀) nd.justified_epoch nd.finalized_epoch w nd.best_child nd.best_descendant) } (k + 1) :=
          bcinv_set_same_ptrs hbinv hnd rfl rfl rfl rfl
        have hgp₀ : (s.nodes.set k (ProtoNode.mk nd.root (some p₀)
            nd.justified_epoch nd.finalized_epoch w nd.best_child
            nd.best_descendant)).get? p₀ = s.nodes.get? p₀ :=
          List.get?_set_ne _ _ (by omega)
        cases hdp : d.get? p₀ with
        | none => rw [hdp] at hstep; cases hstep
        | some pd =>
          rw [hdp] at hstep
          simp only at hstep
          rw [hndW] at hstep
          simp only at hstep
          cases hv : ({ s with nodes := s.nodes.set k (ProtoNode.mk nd.root
              (some p₀) nd.justified_epoch nd.finalized_epoch w nd.best_child
              nd.best_descendant) } : ProtoArray).node_is_viable_for_head
              (ProtoNode.mk nd.root (some p₀) nd.justified_epoch
                nd.finalized_epoch w nd.best_child nd.best_descendant) with
          | false =>
            rw [hv] at hstep
            simp only [Bool.false_eq_true, if_false] at hstep
            have hffgW : ({ s with nodes := s.nodes.set k (ProtoNode.mk nd.root
                (some p₀) nd.justified_epoch nd.finalized_epoch w nd.best_child
                nd.best_descendant) } : ProtoArray).ffg_update_required = true := hffg
            rw [if_pos hffgW] at hstep
            rw [hgp₀] at hstep
            cases hpn : s.nodes.get? p₀ with
            | none => rw [hpn] at hstep; cases hstep
            | some pn =>
              rw [hpn] at hstep
              simp only at hstep
              have hpnW : (s.nodes.set k (ProtoNode.mk nd.root (some p₀)
                  nd.justified_epoch nd.finalized_epoch w nd.best_child
                  nd.best_descendant)).get? p₀ = some pn := by rw [hgp₀, hpn]
              by_cases hbck : pn.best_child = some k
              · rw [if_pos hbck] at hstep
                simp only [Prod.mk.injEq, true_and] at hstep
                obtain ⟨hs1, hd1⟩ := hstep
                subst hs1
                exact @clear_case pre ({ s with nodes := s.nodes.set k (ProtoNode.mk nd.root (some p₀) nd.justified_epoch nd.finalized_epoch w nd.best_child nd.best_descendant) }) k p₀ (ProtoNode.mk nd.root (some p₀) nd.justified_epoch nd.finalized_epoch w nd.best_child nd.best_descendant) pn hcoh hskelW hbinvW hndW rfl hp₀k hpnW
              · rw [if_neg hbck] at hstep
                simp only [Prod.mk.injEq, true_and] at hstep
                obtain ⟨hs1, hd1⟩ := hstep
                subst hs1
                exact @nochange_case pre ({ s with nodes := s.nodes.set k (ProtoNode.mk nd.root (some p₀) nd.justified_epoch nd.finalized_epoch w nd.best_child nd.best_descendant) }) k p₀ (ProtoNode.mk nd.root (some p₀) nd.justified_epoch nd.finalized_epoch w nd.best_child nd.best_descendant) pn hcoh hskelW hbinvW hndW rfl hpnW hbck
          | true =>
            rw [hv] at hstep
            simp only [if_true] at hstep
            rw [hgp₀] at hstep
            cases hpn : s.nodes.get? p₀ with
            | none => rw [hpn] at hstep; cases hstep
            | some pn =>
              rw [hpn] at hstep
              simp only at hstep
              have hpnW : (s.nodes.set k (ProtoNode.mk nd.root (some p₀)
                  nd.justified_epoch nd.finalized_epoch w nd.best_child
                  nd.best_descendant)).get? p₀ = some pn := by rw [hgp₀, hpn]
              have hvp : nd.justified_epoch = s.justified_epoch ∧
                  nd.finalized_epoch = s.finalized_epoch := by
                have hx := hv
                simp [ProtoArray.node_is_viable_for_head] at hx
                exact hx
              cases hbc : pn.best_child with
              | none =>
                rw [hbc] at hstep
                unfold ProtoArray.set_best_child at hstep
                simp only at hstep
                rw [hndW] at hstep
                simp only at hstep
                rw [hpnW] at hstep
                simp only [Prod.mk.injEq, true_and] at hstep
                obtain ⟨hs1, hd1⟩ := hstep
                subst hs1
                exact @install_case pre ({ s with nodes := s.nodes.set k (ProtoNode.mk nd.root (some p₀) nd.justified_epoch nd.finalized_epoch w nd.best_child nd.best_descendant) }) k p₀ (ProtoNode.mk nd.root (some p₀) nd.justified_epoch nd.finalized_epoch w nd.best_child nd.best_descendant) pn hcoh hk hskelW hbinvW hndW rfl hp₀k hpnW hvp.1 hvp.2
              | some c₀ =>
                rw [hbc] at hstep
                simp only at hstep
                by_cases hc₀k : c₀ = k
                · rw [if_pos hc₀k] at hstep
                  unfold ProtoArray.set_best_child at hstep
                  simp only at hstep
                  rw [hndW] at hstep
                  simp only at hstep
                  rw [hpnW] at hstep
                  simp only [Prod.mk.injEq, true_and] at hstep
                  obtain ⟨hs1, hd1⟩ := hstep
                  subst hs1
                  exact @install_case pre ({ s with nodes := s.nodes.set k (ProtoNode.mk nd.root (some p₀) nd.justified_epoch nd.finalized_epoch w nd.best_child nd.best_descendant) }) k p₀ (ProtoNode.mk nd.root (some p₀) nd.justified_epoch nd.finalized_epoch w nd.best_child nd.best_descendant) pn hcoh hk hskelW hbinvW hndW rfl hp₀k hpnW hvp.1 hvp.2
                · rw [if_neg hc₀k] at hstep
                  cases hpbc : (s.nodes.set k (ProtoNode.mk nd.root (some p₀)
                      nd.justified_epoch nd.finalized_epoch w nd.best_child
                      nd.best_descendant)).get? c₀ with
                  | none => rw [hpbc] at hstep; cases hstep
                  | some pbc =>
                    rw [hpbc] at hstep
                    simp only at hstep
                    by_cases hcond : ((ProtoNode.mk nd.root (some p₀)
                        nd.justified_epoch nd.finalized_epoch w nd.best_child
                        nd.best_descendant).is_better_than pbc ||
                        ! ({ s with nodes := s.nodes.set k (ProtoNode.mk nd.root
                          (some p₀) nd.justified_epoch nd.finalized_epoch w
                          nd.best_child nd.best_descendant) } :
                          ProtoArray).node_is_viable_for_head pbc) = true
                    · rw [if_pos hcond] at hstep
                      unfold ProtoArray.set_best_child at hstep
                      simp only at hstep
                      rw [hndW] at hstep
                      simp only at hstep
                      rw [hpnW] at hstep
                      simp only [Prod.mk.injEq, true_and] at hstep
                      obtain ⟨hs1, hd1⟩ := hstep
                      subst hs1
                      exact @install_case pre ({ s with nodes := s.nodes.set k (ProtoNode.mk nd.root (some p₀) nd.justified_epoch nd.finalized_epoch w nd.best_child nd.best_descendant) }) k p₀ (ProtoNode.mk nd.root (some p₀) nd.justified_epoch nd.finalized_epoch w nd.best_child nd.best_descendant) pn hcoh hk hskelW hbinvW hndW rfl hp₀k hpnW hvp.1 hvp.2
                    · rw [if_neg hcond] at hstep
                      simp only [Prod.mk.injEq, true_and] at hstep
                      obtain ⟨hs1, hd1⟩ := hstep
                      subst hs1
                      exact @nochange_case pre ({ s with nodes := s.nodes.set k (ProtoNode.mk nd.root (some p₀) nd.justified_epoch nd.finalized_epoch w nd.best_child nd.best_descendant) }) k p₀ (ProtoNode.mk nd.root (some p₀) nd.justified_epoch nd.finalized_epoch w nd.best_child nd.best_descendant) pn hcoh hskelW hbinvW hndW rfl hpnW (by rw [hbc]; exact fun hx => hc₀k (Option.some.inj hx))

/-- The invariant holds before the loop starts. -/
theorem loopInv_init (pre : ProtoArray) (hcoh : coherentB pre.nodes = true)
    (hffg : pre.ffg_update_required = true) :
    LoopInv pre pre pre.nodes.length := by
  refine ⟨⟨rfl, rfl, rfl, hffg, fun i nd h => ⟨nd, h, rfl, rfl, rfl, rfl⟩⟩, ?_⟩
  intro p pnd c hg hbc
  constructor
  · intro hkc
    obtain ⟨cnd, hcnd, _⟩ := coherentB_spec hcoh hg hbc
    have hclen : c < pre.nodes.length := (List.get?_eq_some.mp hcnd).1
    exact absurd hclen (by omega)
  · intro _
    exact ⟨pnd, hg, hbc, rfl⟩

/-- Running the whole loop from the initial boundary yields the invariant at
boundary `0`. -/
theorem applyLoop_inv (pre : ProtoArray)
    (htopo : topoB pre.nodes = true)
    (hcoh : coherentB pre.nodes = true)
    (hnz : nonzeroRootsB pre.nodes = true) :
    ∀ (k : Nat) (s : ProtoArray) (d : List Int), k ≤ pre.nodes.length →
      LoopInv pre s k →
      ∀ {s' : ProtoArray} {d' : List Int},
        applyLoop s d (revRange k) = (none, (s', d')) →
        LoopInv pre s' 0 := by
  intro k
  induction k with
  | zero =>
    intro s d _ hinv s' d' hloop
    simp only [revRange, applyLoop, Prod.mk.injEq, true_and] at hloop
    obtain ⟨h1, h2⟩ := hloop
    subst h1
    exact hinv
  | succ m ih =>
    intro s d hle hinv s' d' hloop
    unfold revRange applyLoop at hloop
    cases hstep : applyStep s d m with
    | mk e st =>
      rw [hstep] at hloop
      cases e with
      | some err => simp at hloop
      | none =>
        cases st with
        | mk sm dm =>
          simp only at hloop
          have hinv' : LoopInv pre sm m :=
            applyStep_inv pre s d m htopo hcoh hnz (by omega) hinv (by rw [hstep])
          exact ih sm dm (by omega) hinv' hloop

/-- C3 amended: after every successful `apply_score_changes` that runs in
FFG-update mode (`justified_epoch` argument differs from the engine's), on a
state whose nodes are topologically ordered, whose best-child pointers are
parent-coherent, and whose roots are nonzero, every node with
`best_child[i] = Some c` has a viable node at `c` and
`best_descendant[i] = best_descendant[c].or(Some c)`.  After `on_new_block`
(and after a `maybe_prune` that advances the finalized epoch) the invariant
can be temporarily violated until such a pass runs. -/
theorem apply_ffg_establishes_invariants (a : ProtoArray) (d : List Int) (e : Nat)
    (hffg : e ≠ a.justified_epoch)
    (htopo : topoB a.nodes = true)
    (hcoh : coherentB a.nodes = true)
    (hnz : nonzeroRootsB a.nodes = true)
    (hsucc : (a.apply_score_changes d e).1 = none) :
    ∀ p pnd c, (a.apply_score_changes d e).2.nodes.get? p = some pnd →
      pnd.best_child = some c →
      ∃ cnd, (a.apply_score_changes d e).2.nodes.get? c = some cnd ∧
        (a.apply_score_changes d e).2.node_is_viable_for_head cnd = true ∧
        pnd.best_descendant = some (cnd.best_descendant.getD c) := by
  unfold ProtoArray.apply_score_changes at hsucc ⊢
  by_cases hlen : d.length ≠ a.indices.length
  · rw [if_pos hlen] at hsucc
    simp at hsucc
  · rw [if_neg hlen] at hsucc ⊢
    simp only at hsucc ⊢
    have hproj : ({ a with ffg_update_required := decide (e ≠ a.justified_epoch), justified_epoch := if decide (e ≠ a.justified_epoch) = true then e else a.justified_epoch } : ProtoArray).nodes.length = a.nodes.length := rfl
    rw [hproj] at hsucc ⊢
    have hB : LoopInv ({ a with ffg_update_required := decide (e ≠ a.justified_epoch), justified_epoch := if decide (e ≠ a.justified_epoch) = true then e else a.justified_epoch }) ({ a with ffg_update_required := decide (e ≠ a.justified_epoch), justified_epoch := if decide (e ≠ a.justified_epoch) = true then e else a.justified_epoch }) a.nodes.length :=
      loopInv_init _ hcoh (by simp [hffg])
    cases hloop : applyLoop ({ a with ffg_update_required := decide (e ≠ a.justified_epoch), justified_epoch := if decide (e ≠ a.justified_epoch) = true then e else a.justified_epoch }) d (revRange a.nodes.length) with
    | mk eo st =>
      rw [hloop] at hsucc
      cases eo with
      | some err =>
        cases st with
        | mk a' d' => simp at hsucc
      | none =>
        cases st with
        | mk a' d' =>
          simp only at hsucc ⊢
          have hfin : LoopInv ({ a with ffg_update_required := decide (e ≠ a.justified_epoch), justified_epoch := if decide (e ≠ a.justified_epoch) = true then e else a.justified_epoch }) a' 0 :=
            applyLoop_inv ({ a with ffg_update_required := decide (e ≠ a.justified_epoch), justified_epoch := if decide (e ≠ a.justified_epoch) = true then e else a.justified_epoch } : ProtoArray) htopo hcoh hnz a.nodes.length ({ a with ffg_update_required := decide (e ≠ a.justified_epoch), justified_epoch := if decide (e ≠ a.justified_epoch) = true then e else a.justified_epoch } : ProtoArray) d (le_refl _) hB hloop
          intro p pnd c hg hbc
          have hb := (hfin.2 p pnd c hg hbc).1 (Nat.zero_le c)
          obtain ⟨hclen, hcfacts⟩ := hb
          obtain ⟨cnd, hcnd⟩ : ∃ cnd, a'.nodes.get? c = some cnd :=
            ⟨_, List.get?_eq_get hclen⟩
          have hfacts := hcfacts cnd hcnd
          refine ⟨cnd, hcnd, ?_, hfacts.2⟩
          simp [ProtoArray.node_is_viable_for_head, hfacts.1.1, hfacts.1.2]

/-- A two-node state whose nodes carry the next justified epoch, used to run
`apply_score_changes` in FFG-update mode. -/
def ffgState : ProtoArray :=
  { prune_threshold := 0
    ffg_update_required := false
    justified_epoch := 0
    finalized_epoch := 0
    finalized_root := 1
    nodes := [{ root := 1, parent := none, justified_epoch := 1, finalized_epoch := 0,
                weight := 0, best_child := some 1, best_descendant := some 1 },
              { root := 2, parent := some 0, justified_epoch := 1, finalized_epoch := 0,
                weight := 0, best_child := none, best_descendant := none }],
    indices := [(1, 0), (2, 1)] }

/-- C3 amended witness: after an FFG-mode zero-delta pass on `ffgState`, the
anchor's best child (node 1) is viable and the closure equation holds. -/
theorem apply_ffg_establishes_invariants_witness :
    ∃ cnd, (ffgState.apply_score_changes [0, 0] 1).2.nodes.get? 1 = some cnd ∧
      (ffgState.apply_score_changes [0, 0] 1).2.node_is_viable_for_head cnd = true ∧
      (ProtoNode.mk 1 none 1 0 0 (some 1) (some 1)).best_descendant =
        some (cnd.best_descendant.getD 1) :=
  apply_ffg_establishes_invariants ffgState [0, 0] 1 (by decide) (by decide)
    (by decide) (by decide) (by decide) 0
    (ProtoNode.mk 1 none 1 0 0 (some 1) (some 1)) 1 (by decide) rfl
